import Mathlib

/-!
# SAXPY round loop (`src/saxpy.c`): partition, worker, round, reduction

Shallow embedding of the computational core of `saxpy.c`:

* the C type `int` is modelled by `Int`, every arithmetic operation on it being reduced
  to 32 bits by `wrap32` (two's complement), so that statements about the partition
  arithmetic are statements about what the machine evaluates;
* the C type `double` is modelled by an arbitrary carrier `α` with uninterpreted
  operations (`Arith`): nothing is assumed about addition, multiplication or division,
  so every equation proved holds for IEEE doubles bit for bit as well as for exact
  arithmetic;
* the heap blocks `X`, `Y` and `Y_avgs` are lists with checked accesses (`load`,
  `store`): an access outside a block yields `none`;
* a call `pthread_create` may fail, and the program discards its result (line 131): the
  outcome of every call is a parameter `created` of the round, a worker whose thread is
  not created never runs, and the round goes on; `pthread_join`, whose result is
  discarded too, changes no block;
* the threads of one round that run are run one after the other in creation order
  (`spawn_join`); `schedule_independent` shows that every other interleaving of the
  element updates of these workers gives the same memory.
-/

namespace Saxpy

/-! ## Machine integers -/

/-- Largest value of the C type `int`. -/
def INT_MAX : Int := 2147483647

/-- Two's complement reduction of a mathematical integer to a 32-bit `int`. -/
def wrap32 (x : Int) : Int := (x + 2147483648) % 4294967296 - 2147483648

/-- `a + b` on `int`. -/
def int_add (a b : Int) : Int := wrap32 (a + b)

/-- `a - b` on `int`. -/
def int_sub (a b : Int) : Int := wrap32 (a - b)

/-- `a * b` on `int`. -/
def int_mul (a b : Int) : Int := wrap32 (a * b)

/-- `a / b` on `int`: C division truncates towards zero. The value for `b = 0` is
never used: `main_loop` stops before it. (`INT_MIN / -1` does not arise for a positive
divisor, the only case the statements below are about.) -/
def int_div (a b : Int) : Int := wrap32 (Int.tdiv a b)

/-! ## Partition (`main`, lines 120, 128, 129) -/

/-- `int segment_size = p / n_threads;` -/
def segment_size (p n_threads : Int) : Int := int_div p n_threads

/-- `args[i].start = i * segment_size;` -/
def seg_start (segment_size i : Int) : Int := int_mul i segment_size

/-- `args[i].end = (i == n_threads - 1) ? p : (i + 1) * segment_size;` -/
def seg_end (p n_threads segment_size i : Int) : Int :=
  if i = int_sub n_threads 1 then p else int_mul (int_add i 1) segment_size

/-! ## Floating-point operations and memory -/

/-- The operations on `double` that the program uses, uninterpreted. -/
structure Arith (α : Type) where
  /-- `x + y` on `double`. -/
  add : α → α → α
  /-- `x * y` on `double`. -/
  mul : α → α → α
  /-- `x / y` on `double`. -/
  div : α → α → α
  /-- Conversion of an `int` to `double`. -/
  ofInt : Int → α

/-- The heap blocks of `main`: `X`, `Y` (both `malloc(sizeof(double) * p)`) and `Y_avgs`
(`malloc(sizeof(double) * max_iters)`). `avg_writes` is a ghost field: the indices of
the stores into `Y_avgs`, oldest first. -/
structure Mem (α : Type) where
  /-- Block `X`. -/
  X : List α
  /-- Block `Y`. -/
  Y : List α
  /-- Block `Y_avgs`. -/
  Y_avgs : List α
  /-- Ghost: indices stored to in `Y_avgs`, in order. -/
  avg_writes : List Int

/-- The fields of `ThreadArgs` that `main` sets and `saxpy_thread` reads. The pointer
fields `X` and `Y` are the blocks of `Mem`; the fields `Y_avgs` and `p` are never
assigned nor read. -/
structure ThreadArgs (α : Type) where
  /-- Field `a`. -/
  a : α
  /-- Field `start`. -/
  start : Int
  /-- Field `end`. -/
  end_ : Int
  /-- Field `iters`. -/
  iters : Int

/-- Read `block[i]`; `none` when `i` is outside the block. -/
def load {α : Type} (block : List α) (i : Int) : Option α :=
  if 0 ≤ i then block[i.toNat]? else none

/-- Write `block[i] = v`; `none` when `i` is outside the block. -/
def store {α : Type} (block : List α) (i : Int) (v : α) : Option (List α) :=
  if 0 ≤ i ∧ i < block.length then some (block.set i.toNat v) else none

/-- Values taken by the counter of `for (i = lo; i < hi; i++)`, in order. -/
def for_range (lo hi : Int) : List Int :=
  (List.range (hi - lo).toNat).map (fun (k : Nat) => lo + (k : Int))

/-! ## Worker (`saxpy_thread`, lines 33-41) -/

/-- `args->Y[i] = args->Y[i] + args->a * args->X[i];` -/
def saxpy_body {α : Type} (F : Arith α) (a : α) (m : Mem α) (i : Int) : Option (Mem α) := do
  let y ← load m.Y i
  let x ← load m.X i
  let Y1 ← store m.Y i (F.add y (F.mul a x))
  some { m with Y := Y1 }

/-- The two nested loops of `saxpy_thread`. -/
def saxpy_thread {α : Type} (F : Arith α) (args : ThreadArgs α) (m : Mem α) : Option (Mem α) :=
  (for_range 0 args.iters).foldlM
    (fun m1 _ => (for_range args.start args.end_).foldlM (saxpy_body F args.a) m1) m

/-! ## Round loop (`main`, lines 120-143) -/

/-- Lines 125-130: the arguments handed to worker `i`. -/
def make_args {α : Type} (a : α) (p n_threads segment_size i : Int) : ThreadArgs α :=
  { a := a
    start := seg_start segment_size i
    end_ := seg_end p n_threads segment_size i
    iters := 1 }

/-- Lines 124-135: create the `n_threads` workers, then join them all. `created i` is the
outcome of the call `pthread_create` for worker `i` (line 131): the program discards the
result of the call, so when no thread is created the worker never runs and the loop goes
on to the next worker. `pthread_join` (line 134), whose result is discarded as well,
waits for the thread and changes no block. The workers that run are run one after the
other, in creation order. -/
def spawn_join {α : Type} (F : Arith α) (a : α) (p n_threads segment_size : Int)
    (created : Int → Bool) (m : Mem α) : Option (Mem α) :=
  (for_range 0 n_threads).foldlM
    (fun m1 i =>
      if created i then saxpy_thread F (make_args a p n_threads segment_size i) m1
      else some m1) m

/-- Indices visited, in order, by worker `i` of a round: the values of the counter of
the inner loop of `saxpy_thread`. -/
def worker_trace (p n_threads segment_size i : Int) : List Int :=
  for_range (seg_start segment_size i) (seg_end p n_threads segment_size i)

/-- The index sequences of the `n_threads` workers of a round, in creation order; the
sequence of a worker whose thread is not created is empty. -/
def worker_traces (p n_threads segment_size : Int) (created : Int → Bool) : List (List Int) :=
  (for_range 0 n_threads).map
    (fun i => if created i then worker_trace p n_threads segment_size i else [])

/-- `Interleaving ls tr`: the sequence `tr` is a schedule of the sequences `ls`, that is
it is obtained by repeatedly taking the next element of one of them, until all are
exhausted. -/
inductive Interleaving : List (List Int) → List Int → Prop
  | done (ls : List (List Int)) : (∀ l ∈ ls, l = []) → Interleaving ls []
  | step (ls : List (List Int)) (k : Nat) (x : Int) (rest tr : List Int) :
      ls[k]? = some (x :: rest) → Interleaving (ls.set k rest) tr → Interleaving ls (x :: tr)

/-- Lines 138-141: `total = 0; for (i = 0; i < p; i++) total += Y[i];` -/
def sum_Y {α : Type} (F : Arith α) (p : Int) (m : Mem α) : Option α :=
  (for_range 0 p).foldlM (fun total i => (load m.Y i).map (fun y => F.add total y)) (F.ofInt 0)

/-- Line 142, `Y_avgs[it] = v;`: the store into the block `Y_avgs`, recorded in the ghost
log. This is the only place where the log grows. -/
def store_avg {α : Type} (m : Mem α) (it : Int) (v : α) : Option (Mem α) :=
  (store m.Y_avgs it v).map
    (fun avgs => { m with Y_avgs := avgs, avg_writes := m.avg_writes ++ [it] })

/-- Lines 124-142: one round `it` of the loop of `main`; `created` gives the outcomes of
the calls `pthread_create` of this round. -/
def round {α : Type} (F : Arith α) (a : α) (p n_threads segment_size : Int)
    (created : Int → Bool) (m : Mem α) (it : Int) : Option (Mem α) := do
  let m1 ← spawn_join F a p n_threads segment_size created m
  let total ← sum_Y F p m1
  store_avg m1 it (F.div total (F.ofInt p))

/-- The first `k` rounds of the loop of `main`: `it = 0, ..., k - 1`; `created it i` is
the outcome of `pthread_create` for worker `i` in round `it`. -/
def rounds {α : Type} (F : Arith α) (a : α) (p n_threads : Int) (created : Int → Int → Bool)
    (k : Int) (m : Mem α) : Option (Mem α) :=
  (for_range 0 k).foldlM
    (fun m1 it => round F a p n_threads (segment_size p n_threads) (created it) m1 it) m

/-- Lines 120-143: `segment_size = p / n_threads` (a division by zero stops the
program), then the rounds `it = 0, ..., max_iters - 1`. -/
def main_loop {α : Type} (F : Arith α) (a : α) (p n_threads max_iters : Int)
    (created : Int → Int → Bool) (m : Mem α) : Option (Mem α) :=
  if n_threads = 0 then none else rounds F a p n_threads created max_iters m

/-! ## Final report (`main`, lines 157-158) -/

/-- Indices of `Y` read by line 157: `p-3`, `p-2`, `p-1`. -/
def report_Y_indices (p : Int) : List Int := [int_sub p 3, int_sub p 2, int_sub p 1]

/-- Indices of `Y_avgs` read by line 158: `max_iters-3`, `max_iters-2`, `max_iters-1`. -/
def report_avg_indices (max_iters : Int) : List Int :=
  [int_sub max_iters 3, int_sub max_iters 2, int_sub max_iters 1]

/-- Lines 157-158: the six values printed, `none` when one of the reads is outside its
block. -/
def report {α : Type} (p max_iters : Int) (m : Mem α) : Option (List α) := do
  let y3 ← load m.Y (int_sub p 3)
  let y2 ← load m.Y (int_sub p 2)
  let y1 ← load m.Y (int_sub p 1)
  let a3 ← load m.Y_avgs (int_sub max_iters 3)
  let a2 ← load m.Y_avgs (int_sub max_iters 2)
  let a1 ← load m.Y_avgs (int_sub max_iters 1)
  some [y3, y2, y1, a3, a2, a1]

/-! ## Reference functions used in the statements -/

/-- One update of every element: `Y[i] + a * X[i]` at every index. -/
def saxpy_all {α : Type} (F : Arith α) (a : α) (X Y : List α) : List α :=
  List.zipWith (fun y x => F.add y (F.mul a x)) Y X

/-- The vector `Y` after `k` updates of every element. -/
def saxpy_iter {α : Type} (F : Arith α) (a : α) (X : List α) : Nat → List α → List α
  | 0, Y => Y
  | k + 1, Y => saxpy_all F a X (saxpy_iter F a X k Y)

/-- `(Y[0] + Y[1] + ... + Y[p-1]) / p`, summed left to right from `0`. -/
def mean {α : Type} (F : Arith α) (p : Int) (Y : List α) : α :=
  F.div (Y.foldl F.add (F.ofInt 0)) (F.ofInt p)

/-- Integer arithmetic as an instance of `Arith`, for evaluating the definitions. -/
def intArith : Arith Int :=
  { add := fun x y => x + y, mul := fun x y => x * y, div := fun x y => x / y, ofInt := fun x => x }

/-! ## Lemmas on machine integers -/

theorem wrap32_id {x : Int} (h1 : -2147483648 ≤ x) (h2 : x ≤ 2147483647) : wrap32 x = x := by
  unfold wrap32
  omega

theorem segment_size_eq {p w : Int} (hp : 0 ≤ p) (hp2 : p ≤ INT_MAX) (hw : 1 ≤ w) :
    segment_size p w = p / w := by
  unfold segment_size int_div
  rw [Int.tdiv_eq_ediv hp (by omega)]
  have h1 : 0 ≤ p / w := Int.ediv_nonneg hp (by omega)
  have h2 : p / w ≤ p := Int.ediv_le_self w hp
  unfold INT_MAX at hp2
  exact wrap32_id (by omega) (by omega)

theorem mul_div_le {p w i : Int} (hp : 0 ≤ p) (hw : 1 ≤ w) (hi : i ≤ w) :
    i * (p / w) ≤ p := by
  have h1 : 0 ≤ p / w := Int.ediv_nonneg hp (by omega)
  have h2 : w * (p / w) ≤ p := Int.mul_ediv_self_le (by omega)
  have h3 : i * (p / w) ≤ w * (p / w) := mul_le_mul_of_nonneg_right hi h1
  omega

theorem seg_start_eq {p w i : Int} (hp : 0 ≤ p) (hp2 : p ≤ INT_MAX) (hw : 1 ≤ w)
    (hi0 : 0 ≤ i) (hi : i < w) : seg_start (segment_size p w) i = i * (p / w) := by
  rw [segment_size_eq hp hp2 hw]
  unfold seg_start int_mul
  have h1 : 0 ≤ p / w := Int.ediv_nonneg hp (by omega)
  have h2 : i * (p / w) ≤ p := mul_div_le hp hw (by omega)
  have h3 : 0 ≤ i * (p / w) := mul_nonneg hi0 h1
  unfold INT_MAX at hp2
  exact wrap32_id (by omega) (by omega)

theorem seg_end_last {p w : Int} (hw : 1 ≤ w) (hw2 : w ≤ INT_MAX) :
    seg_end p w (segment_size p w) (w - 1) = p := by
  unfold seg_end int_sub
  unfold INT_MAX at hw2
  rw [wrap32_id (by omega) (by omega)]
  simp

theorem seg_end_inner {p w i : Int} (hp : 0 ≤ p) (hp2 : p ≤ INT_MAX) (hw : 1 ≤ w)
    (hw2 : w ≤ INT_MAX) (hi0 : 0 ≤ i) (hi : i < w - 1) :
    seg_end p w (segment_size p w) i = (i + 1) * (p / w) := by
  rw [segment_size_eq hp hp2 hw]
  unfold seg_end int_sub int_mul int_add
  unfold INT_MAX at hw2 hp2
  rw [wrap32_id (x := w - 1) (by omega) (by omega), if_neg (by omega),
    wrap32_id (x := i + 1) (by omega) (by omega)]
  have h1 : 0 ≤ p / w := Int.ediv_nonneg hp (by omega)
  have h2 : (i + 1) * (p / w) ≤ p := mul_div_le hp hw (by omega)
  have h3 : 0 ≤ (i + 1) * (p / w) := mul_nonneg (by omega) h1
  exact wrap32_id (by omega) (by omega)

/-- Bounds of a segment: `0 ≤ start ≤ end ≤ p`. -/
theorem seg_bounds {p w i : Int} (hp : 0 ≤ p) (hp2 : p ≤ INT_MAX) (hw : 1 ≤ w)
    (hw2 : w ≤ INT_MAX) (hi0 : 0 ≤ i) (hi : i < w) :
    0 ≤ seg_start (segment_size p w) i ∧
    seg_start (segment_size p w) i ≤ seg_end p w (segment_size p w) i ∧
    seg_end p w (segment_size p w) i ≤ p := by
  have h1 : 0 ≤ p / w := Int.ediv_nonneg hp (by omega)
  have h3 : 0 ≤ i * (p / w) := mul_nonneg hi0 h1
  rw [seg_start_eq hp hp2 hw hi0 hi]
  by_cases hl : i = w - 1
  · subst hl
    rw [seg_end_last hw hw2]
    exact ⟨h3, mul_div_le hp hw (by omega), le_refl _⟩
  · rw [seg_end_inner hp hp2 hw hw2 hi0 (by omega)]
    refine ⟨h3, ?_, mul_div_le hp hw (by omega)⟩
    have : (i + 1) * (p / w) = i * (p / w) + p / w := by ring
    omega

/-- Two different workers never share an index. -/
theorem seg_disjoint {p w i k j : Int} (hp : 0 ≤ p) (hp2 : p ≤ INT_MAX) (hw : 1 ≤ w)
    (hw2 : w ≤ INT_MAX) (hi0 : 0 ≤ i) (hik : i < k) (hk : k < w)
    (h1 : j < seg_end p w (segment_size p w) i) (h2 : seg_start (segment_size p w) k ≤ j) :
    False := by
  rw [seg_end_inner hp hp2 hw hw2 hi0 (by omega)] at h1
  rw [seg_start_eq hp hp2 hw (by omega) hk] at h2
  have hs : 0 ≤ p / w := Int.ediv_nonneg hp (by omega)
  have h3 : (i + 1) * (p / w) ≤ k * (p / w) := mul_le_mul_of_nonneg_right (by omega) hs
  omega

/-- Every index of `[0, p)` belongs to the segment of some worker. -/
theorem seg_owner {p w j : Int} (hp2 : p ≤ INT_MAX) (hw : 1 ≤ w)
    (hw2 : w ≤ INT_MAX) (hj0 : 0 ≤ j) (hj : j < p) :
    ∃ i, 0 ≤ i ∧ i < w ∧ seg_start (segment_size p w) i ≤ j ∧
      j < seg_end p w (segment_size p w) i := by
  have hp : 0 ≤ p := by omega
  have hs : 0 ≤ p / w := Int.ediv_nonneg hp (by omega)
  by_cases hlast : (w - 1) * (p / w) ≤ j
  · refine ⟨w - 1, by omega, by omega, ?_, ?_⟩
    · rw [seg_start_eq hp hp2 hw (by omega) (by omega)]
      exact hlast
    · rw [seg_end_last hw hw2]
      exact hj
  · have hspos : 0 < p / w := by
      rcases hs.lt_or_eq with h | h
      · exact h
      · rw [← h] at hlast
        simp at hlast
        omega
    have hq0 : 0 ≤ j / (p / w) := Int.ediv_nonneg hj0 hs
    have hq1 : (p / w) * (j / (p / w)) ≤ j := Int.mul_ediv_self_le (by omega)
    have hq2 : j < (p / w) * (j / (p / w)) + p / w := Int.lt_mul_ediv_self_add hspos
    have hq3 : j / (p / w) < w - 1 := by
      by_contra hcon
      have : (w - 1) * (p / w) ≤ (j / (p / w)) * (p / w) :=
        mul_le_mul_of_nonneg_right (by omega) hs
      have h5 : (j / (p / w)) * (p / w) = (p / w) * (j / (p / w)) := by ring
      omega
    refine ⟨j / (p / w), hq0, by omega, ?_, ?_⟩
    · rw [seg_start_eq hp hp2 hw hq0 (by omega)]
      have h5 : (j / (p / w)) * (p / w) = (p / w) * (j / (p / w)) := by ring
      omega
    · rw [seg_end_inner hp hp2 hw hw2 hq0 hq3]
      have h5 : (j / (p / w) + 1) * (p / w) = (p / w) * (j / (p / w)) + p / w := by ring
      omega

/-! ## Lemmas on loop ranges -/

theorem mem_for_range {lo hi x : Int} : x ∈ for_range lo hi ↔ lo ≤ x ∧ x < hi := by
  unfold for_range
  simp only [List.mem_map, List.mem_range]
  constructor
  · rintro ⟨k, hk, rfl⟩
    omega
  · intro h
    exact ⟨(x - lo).toNat, by omega, by omega⟩

theorem for_range_nodup (lo hi : Int) : (for_range lo hi).Nodup := by
  unfold for_range
  refine List.Nodup.map ?_ (List.nodup_range _)
  intro x y hxy
  simp only at hxy
  omega

theorem for_range_empty {lo hi : Int} (h : hi ≤ lo) : for_range lo hi = [] := by
  unfold for_range
  have : (hi - lo).toNat = 0 := by omega
  rw [this]
  rfl

theorem for_range_append {lo mid hi : Int} (h1 : lo ≤ mid) (h2 : mid ≤ hi) :
    for_range lo hi = for_range lo mid ++ for_range mid hi := by
  unfold for_range
  have h : (hi - lo).toNat = (mid - lo).toNat + (hi - mid).toNat := by omega
  rw [h, List.range_add, List.map_append, List.map_map]
  congr 1
  apply List.map_congr_left
  intro k _
  simp only [Function.comp]
  push_cast
  omega

theorem for_range_one (lo : Int) : for_range lo (lo + 1) = [lo] := by
  unfold for_range
  have : (lo + 1 - lo).toNat = 1 := by omega
  rw [this]
  simp [List.range_succ]

theorem for_range_snoc {lo hi : Int} (h : lo ≤ hi) :
    for_range lo (hi + 1) = for_range lo hi ++ [hi] := by
  rw [for_range_append h (by omega), for_range_one]

/-! ## Lemmas on the worker -/

theorem load_eq {α : Type} (l : List α) (n : Nat) : load l (n : Int) = l[n]? := by
  unfold load
  simp

theorem load_of_neg {α : Type} (l : List α) {i : Int} (h : i < 0) : load l i = none := by
  unfold load
  rw [if_neg (by omega)]

theorem load_isSome {α : Type} (l : List α) (i : Int) :
    (load l i).isSome ↔ 0 ≤ i ∧ i < l.length := by
  unfold load
  by_cases h : 0 ≤ i
  · rw [if_pos h]
    rw [← Option.ne_none_iff_isSome, ne_eq, List.getElem?_eq_none_iff]
    omega
  · rw [if_neg h]
    simp
    intro h2
    omega

/-- With `iters = 1` the worker is one pass over its segment. -/
theorem saxpy_thread_one {α : Type} (F : Arith α) (a : α) (s e : Int) (m : Mem α) :
    saxpy_thread F { a := a, start := s, end_ := e, iters := 1 } m =
      (for_range s e).foldlM (saxpy_body F a) m := by
  unfold saxpy_thread
  have h : for_range 0 1 = [0] := for_range_one 0
  simp only [h, List.foldlM_cons, List.foldlM_nil]
  simp

/-- Effect of the loop body on a list of pairwise different indices of the block `Y`:
the listed elements are updated once, nothing else changes. -/
theorem foldlM_saxpy_body {α : Type} (F : Arith α) (a : α) :
    ∀ (l : List Int) (m : Mem α), l.Nodup → (∀ j ∈ l, 0 ≤ j ∧ j < m.Y.length) →
      m.Y.length ≤ m.X.length →
      ∃ m1, l.foldlM (saxpy_body F a) m = some m1 ∧ m1.X = m.X ∧ m1.Y_avgs = m.Y_avgs ∧
        m1.avg_writes = m.avg_writes ∧ m1.Y.length = m.Y.length ∧
        ∀ n : Nat, m1.Y[n]? =
          if (n : Int) ∈ l then
            (m.Y[n]?).bind (fun y => (m.X[n]?).map (fun x => F.add y (F.mul a x)))
          else m.Y[n]? := by
  intro l
  induction l with
  | nil =>
    intro m _ _ _
    exact ⟨m, rfl, rfl, rfl, rfl, rfl, fun n => by simp⟩
  | cons j t ih =>
    intro m hnd hb hlen
    have hj := hb j (List.mem_cons_self j t)
    have hjY : j.toNat < m.Y.length := by omega
    have hjX : j.toNat < m.X.length := by omega
    have hst : saxpy_body F a m j =
        some { m with Y := m.Y.set j.toNat (F.add m.Y[j.toNat] (F.mul a m.X[j.toNat])) } := by
      unfold saxpy_body load store
      simp [hj.1, hj.2, List.getElem?_eq_getElem hjY, List.getElem?_eq_getElem hjX]
    obtain ⟨hjt, hndt⟩ := List.nodup_cons.mp hnd
    obtain ⟨m1, h1, hX, hA, hW, hL, hY⟩ :=
      ih { m with Y := m.Y.set j.toNat (F.add m.Y[j.toNat] (F.mul a m.X[j.toNat])) } hndt
        (by
          intro k hk
          have := hb k (List.mem_cons_of_mem j hk)
          simpa using this)
        (by simpa using hlen)
    refine ⟨m1, ?_, hX, hA, hW, by simpa using hL, ?_⟩
    · rw [List.foldlM_cons, hst]
      exact h1
    · intro n
      rw [hY n]
      by_cases hn : (n : Int) = j
      · have hnj : j.toNat = n := by omega
        have hnt : ¬ ((n : Int) ∈ t) := by rw [hn]; exact hjt
        rw [if_neg hnt, if_pos (by rw [hn]; exact List.mem_cons_self _ _)]
        subst hnj
        simp only [List.getElem?_eq_getElem hjY, List.getElem?_eq_getElem hjX, Option.map_some',
          Option.some_bind]
        exact List.getElem?_set_self hjY
      · have hnj : j.toNat ≠ n := by omega
        simp only [List.mem_cons, hn, false_or]
        rw [List.getElem?_set_ne hnj]

/-! ## Lemmas on one round -/

theorem foldlM_flatten {α : Type} (f : Mem α → Int → Option (Mem α)) :
    ∀ (ls : List (List Int)) (m : Mem α),
      ls.flatten.foldlM f m = ls.foldlM (fun m1 l => l.foldlM f m1) m := by
  intro ls
  induction ls with
  | nil => intro m; rfl
  | cons l t ih =>
    intro m
    rw [List.flatten_cons, List.foldlM_append, List.foldlM_cons]
    cases h : l.foldlM f m with
    | none => rfl
    | some m1 => exact ih m1

theorem foldlM_congr_mem {α β : Type} (f g : β → α → Option β) :
    ∀ (l : List α) (b : β), (∀ x ∈ l, ∀ s, f s x = g s x) → l.foldlM f b = l.foldlM g b := by
  intro l
  induction l with
  | nil => intro b _; rfl
  | cons x t ih =>
    intro b h
    rw [List.foldlM_cons, List.foldlM_cons, h x (List.mem_cons_self x t) b]
    cases hb : g b x with
    | none => rfl
    | some b1 => exact ih b1 (fun y hy s => h y (List.mem_cons_of_mem x hy) s)

/-- The round run worker after worker is the loop body run over the concatenation of
the index sequences of the workers whose thread is created. -/
theorem spawn_join_eq_traces {α : Type} (F : Arith α) (a : α) (p w size : Int)
    (created : Int → Bool) (m : Mem α) :
    spawn_join F a p w size created m =
      (worker_traces p w size created).flatten.foldlM (saxpy_body F a) m := by
  unfold spawn_join worker_traces
  rw [foldlM_flatten, List.foldlM_map]
  congr 1
  funext m1 i
  cases created i with
  | true =>
    simp only [if_true]
    unfold make_args worker_trace
    exact saxpy_thread_one F a _ _ m1
  | false => rfl

theorem traces_prefix {p w : Int} (hp : 0 ≤ p) (hp2 : p ≤ INT_MAX) (hw : 1 ≤ w)
    (hw2 : w ≤ INT_MAX) :
    ∀ k : Nat, (k : Int) ≤ w - 1 →
      ((for_range 0 k).map (worker_trace p w (segment_size p w))).flatten =
        for_range 0 (k * (p / w)) := by
  have hs : 0 ≤ p / w := Int.ediv_nonneg hp (by omega)
  intro k
  induction k with
  | zero =>
    intro _
    simp [for_range_empty]
  | succ k ih =>
    intro hk
    have hk0 : (0 : Int) ≤ k := by omega
    have e1 : ((k + 1 : Nat) : Int) = (k : Int) + 1 := by push_cast; rfl
    rw [e1, for_range_snoc hk0, List.map_append, List.flatten_append, ih (by omega)]
    simp only [List.map_cons, List.map_nil, List.flatten_singleton]
    unfold worker_trace
    rw [seg_start_eq hp hp2 hw hk0 (by omega), seg_end_inner hp hp2 hw hw2 hk0 (by omega)]
    have h1 : (0 : Int) ≤ k * (p / w) := mul_nonneg hk0 hs
    have h2 : ((k : Int) + 1) * (p / w) = k * (p / w) + p / w := by ring
    exact (for_range_append h1 (by omega)).symm

/-- The index sequences of all the workers, one after the other, are `0, 1, ..., p-1`. -/
theorem traces_flatten_all {p w : Int} (hp : 0 ≤ p) (hp2 : p ≤ INT_MAX) (hw : 1 ≤ w)
    (hw2 : w ≤ INT_MAX) :
    ((for_range 0 w).map (worker_trace p w (segment_size p w))).flatten = for_range 0 p := by
  have hs : 0 ≤ p / w := Int.ediv_nonneg hp (by omega)
  have e1 : w = (w - 1) + 1 := by ring
  have e2 : ((w - 1).toNat : Int) = w - 1 := by omega
  rw [e1, for_range_snoc (by omega), List.map_append, List.flatten_append, ← e1]
  have h := traces_prefix hp hp2 hw hw2 (w - 1).toNat (by omega)
  rw [e2] at h
  rw [h]
  simp only [List.map_cons, List.map_nil, List.flatten_singleton]
  unfold worker_trace
  rw [seg_start_eq hp hp2 hw (by omega) (by omega), seg_end_last hw hw2]
  exact (for_range_append (mul_nonneg (by omega) hs) (mul_div_le hp hw (by omega))).symm

/-- When every thread of the round is created, the index sequences of the workers are
those of all the workers. -/
theorem worker_traces_all {p w size : Int} {created : Int → Bool}
    (hc : ∀ i : Int, 0 ≤ i → i < w → created i = true) :
    worker_traces p w size created = (for_range 0 w).map (worker_trace p w size) := by
  unfold worker_traces
  apply List.map_congr_left
  intro i hi
  have h := mem_for_range.mp hi
  rw [hc i h.1 h.2]
  rfl

/-- When every thread of the round is created, the index sequences of the workers, one
after the other, are `0, 1, ..., p-1`. -/
theorem traces_flatten {p w : Int} {created : Int → Bool} (hp : 0 ≤ p) (hp2 : p ≤ INT_MAX)
    (hw : 1 ≤ w) (hw2 : w ≤ INT_MAX) (hc : ∀ i : Int, 0 ≤ i → i < w → created i = true) :
    (worker_traces p w (segment_size p w) created).flatten = for_range 0 p := by
  rw [worker_traces_all hc, traces_flatten_all hp hp2 hw hw2]

theorem sublist_flatten_map (c : Int → Bool) (f : Int → List Int) :
    ∀ l : List Int,
      ((l.map (fun i => if c i then f i else [])).flatten).Sublist ((l.map f).flatten) := by
  intro l
  induction l with
  | nil => exact List.Sublist.refl _
  | cons x t ih =>
    simp only [List.map_cons, List.flatten_cons]
    refine List.Sublist.append ?_ ih
    cases c x with
    | true => exact List.Sublist.refl _
    | false => exact List.nil_sublist _

/-- Whatever threads are created, the indices visited in a round are pairwise different
indices of `[0, p)`. -/
theorem traces_sublist {p w : Int} (created : Int → Bool) (hp : 0 ≤ p) (hp2 : p ≤ INT_MAX)
    (hw : 1 ≤ w) (hw2 : w ≤ INT_MAX) :
    ((worker_traces p w (segment_size p w) created).flatten).Sublist (for_range 0 p) := by
  have h := sublist_flatten_map created (worker_trace p w (segment_size p w)) (for_range 0 w)
  rw [traces_flatten_all hp hp2 hw hw2] at h
  exact h

/-- When every thread is created, the round is one pass of the loop body over
`0, ..., p-1`, for every worker count. -/
theorem spawn_join_eq {α : Type} (F : Arith α) (a : α) {p w : Int} {created : Int → Bool}
    (hp : 0 ≤ p) (hp2 : p ≤ INT_MAX) (hw : 1 ≤ w) (hw2 : w ≤ INT_MAX)
    (hc : ∀ i : Int, 0 ≤ i → i < w → created i = true) (m : Mem α) :
    spawn_join F a p w (segment_size p w) created m =
      (for_range 0 p).foldlM (saxpy_body F a) m := by
  rw [spawn_join_eq_traces, traces_flatten hp hp2 hw hw2 hc]

theorem getElem?_saxpy_all {α : Type} (F : Arith α) (a : α) (X Y : List α) (n : Nat) :
    (saxpy_all F a X Y)[n]? =
      (Y[n]?).bind (fun y => (X[n]?).map (fun x => F.add y (F.mul a x))) := by
  unfold saxpy_all
  rw [List.getElem?_zipWith]
  cases Y[n]? <;> cases X[n]? <;> rfl

theorem length_saxpy_all {α : Type} (F : Arith α) (a : α) (X Y : List α)
    (h : X.length = Y.length) : (saxpy_all F a X Y).length = Y.length := by
  unfold saxpy_all
  rw [List.length_zipWith]
  omega

theorem Mem.ext_fields {α : Type} {m1 m2 : Mem α} (h1 : m1.X = m2.X) (h2 : m1.Y = m2.Y)
    (h3 : m1.Y_avgs = m2.Y_avgs) (h4 : m1.avg_writes = m2.avg_writes) : m1 = m2 := by
  cases m1
  cases m2
  simp only at h1 h2 h3 h4
  subst h1 h2 h3 h4
  rfl

/-- Two sequences of pairwise different indices of `Y` that are rearrangements of each
other have the same effect. -/
theorem foldlM_perm {α : Type} (F : Arith α) (a : α) (m : Mem α) (tr l : List Int)
    (htr : tr.Perm l) (hnd : l.Nodup) (hb : ∀ j ∈ l, 0 ≤ j ∧ j < m.Y.length)
    (hlen : m.Y.length ≤ m.X.length) :
    tr.foldlM (saxpy_body F a) m = l.foldlM (saxpy_body F a) m := by
  have hnd2 : tr.Nodup := (htr.nodup_iff).mpr hnd
  have hb2 : ∀ j ∈ tr, 0 ≤ j ∧ j < m.Y.length := fun j hj => hb j ((htr.mem_iff).mp hj)
  obtain ⟨m1, h1, a1, a2, a3, _, a5⟩ := foldlM_saxpy_body F a tr m hnd2 hb2 hlen
  obtain ⟨m2, h2, b1, b2, b3, _, b5⟩ := foldlM_saxpy_body F a l m hnd hb hlen
  rw [h1, h2]
  congr 1
  refine Mem.ext_fields (a1.trans b1.symm) ?_ (a2.trans b2.symm) (a3.trans b3.symm)
  apply List.ext_getElem?
  intro n
  rw [a5 n, b5 n]
  by_cases hn : (n : Int) ∈ tr
  · rw [if_pos hn, if_pos ((htr.mem_iff).mp hn)]
  · rw [if_neg hn, if_neg (fun h => hn ((htr.mem_iff).mpr h))]

/-- Effect of the loop body over `0, ..., p-1`: every element is updated once. -/
theorem foldlM_range {α : Type} (F : Arith α) (a : α) {p : Int} (m : Mem α)
    (hX : (m.X.length : Int) = p) (hY : (m.Y.length : Int) = p) :
    (for_range 0 p).foldlM (saxpy_body F a) m = some { m with Y := saxpy_all F a m.X m.Y } := by
  have hb : ∀ j ∈ for_range 0 p, 0 ≤ j ∧ j < m.Y.length := by
    intro j hj
    have := mem_for_range.mp hj
    omega
  obtain ⟨m1, h1, e1, e2, e3, _, e5⟩ :=
    foldlM_saxpy_body F a (for_range 0 p) m (for_range_nodup 0 p) hb (by omega)
  rw [h1]
  congr 1
  refine Mem.ext_fields e1 ?_ e2 e3
  apply List.ext_getElem?
  intro n
  rw [e5 n, getElem?_saxpy_all]
  by_cases hn : (n : Int) ∈ for_range 0 p
  · rw [if_pos hn]
  · rw [if_neg hn]
    rw [mem_for_range] at hn
    have h3 : m.Y.length ≤ n := by omega
    rw [List.getElem?_eq_none h3]
    rfl

/-- One round in which every thread is created, for vectors of length `p`: `X` is kept,
every element of `Y` is updated once. -/
theorem spawn_join_spec {α : Type} (F : Arith α) (a : α) {p w : Int} {created : Int → Bool}
    (hp : 0 ≤ p) (hp2 : p ≤ INT_MAX) (hw : 1 ≤ w) (hw2 : w ≤ INT_MAX)
    (hc : ∀ i : Int, 0 ≤ i → i < w → created i = true) (m : Mem α)
    (hX : (m.X.length : Int) = p) (hY : (m.Y.length : Int) = p) :
    spawn_join F a p w (segment_size p w) created m =
      some { m with Y := saxpy_all F a m.X m.Y } := by
  rw [spawn_join_eq F a hp hp2 hw hw2 hc]
  exact foldlM_range F a m hX hY

/-- One round, whatever threads are created, for vectors of length `p`: the round
returns, and only elements of `Y` may have changed. -/
theorem spawn_join_safe {α : Type} (F : Arith α) (a : α) {p w : Int} (created : Int → Bool)
    (hp : 0 ≤ p) (hp2 : p ≤ INT_MAX) (hw : 1 ≤ w) (hw2 : w ≤ INT_MAX) (m : Mem α)
    (hX : (m.X.length : Int) = p) (hY : (m.Y.length : Int) = p) :
    ∃ m1, spawn_join F a p w (segment_size p w) created m = some m1 ∧ m1.X = m.X ∧
      m1.Y_avgs = m.Y_avgs ∧ m1.avg_writes = m.avg_writes ∧ m1.Y.length = m.Y.length := by
  have hsub := traces_sublist created hp hp2 hw hw2
  have hnd := (for_range_nodup 0 p).sublist hsub
  have hb : ∀ j ∈ (worker_traces p w (segment_size p w) created).flatten,
      0 ≤ j ∧ j < m.Y.length := by
    intro j hj
    have := mem_for_range.mp (hsub.subset hj)
    omega
  obtain ⟨m1, h1, e1, e2, e3, e4, _⟩ := foldlM_saxpy_body F a _ m hnd hb (by omega)
  refine ⟨m1, ?_, e1, e2, e3, e4⟩
  rw [spawn_join_eq_traces]
  exact h1

/-- A round with more workers than elements in which the thread of the last worker is
not created leaves the memory as it is. -/
theorem spawn_join_last_not_created {α : Type} (F : Arith α) (a : α) {p w : Int}
    (created : Int → Bool) (hp : 0 ≤ p) (hpw : p < w) (hw2 : w ≤ INT_MAX)
    (hc : created (w - 1) = false) (m : Mem α) :
    spawn_join F a p w (segment_size p w) created m = some m := by
  have hp2 : p ≤ INT_MAX := by omega
  have hw : 1 ≤ w := by omega
  have hq : p / w = 0 := Int.ediv_eq_zero_of_lt hp hpw
  have hnil : (worker_traces p w (segment_size p w) created).flatten = [] := by
    rw [List.flatten_eq_nil_iff]
    intro l hl
    unfold worker_traces at hl
    obtain ⟨i, hi, rfl⟩ := List.mem_map.mp hl
    have hi2 := mem_for_range.mp hi
    by_cases hlast : i = w - 1
    · rw [hlast, hc]
      rfl
    · cases created i with
      | false => rfl
      | true =>
        simp only [if_true]
        unfold worker_trace
        rw [seg_start_eq hp hp2 hw hi2.1 hi2.2, seg_end_inner hp hp2 hw hw2 hi2.1 (by omega),
          hq, mul_zero, mul_zero]
        exact for_range_empty (le_refl _)
  rw [spawn_join_eq_traces, hnil]
  rfl

/-! ## Lemmas on schedules -/

theorem flatten_perm_of_head {x : Int} {rest : List Int} :
    ∀ (ls : List (List Int)) (k : Nat), ls[k]? = some (x :: rest) →
      ls.flatten.Perm (x :: (ls.set k rest).flatten) := by
  intro ls
  induction ls with
  | nil => intro k h; simp at h
  | cons l t ih =>
    intro k h
    cases k with
    | zero =>
      simp only [List.getElem?_cons_zero, Option.some.injEq] at h
      subst h
      simp
    | succ k =>
      simp only [List.getElem?_cons_succ] at h
      simp only [List.set_cons_succ, List.flatten_cons]
      exact ((ih k h).append_left l).trans List.perm_middle

/-- A schedule of some sequences is a rearrangement of their concatenation. -/
theorem Interleaving.perm {ls : List (List Int)} {tr : List Int} (h : Interleaving ls tr) :
    tr.Perm ls.flatten := by
  induction h with
  | done ls hnil =>
    have : ls.flatten = [] := by
      rw [List.flatten_eq_nil_iff]
      exact hnil
    rw [this]
  | step ls k x rest tr hk _ ih =>
    exact (List.Perm.cons x ih).trans (flatten_perm_of_head ls k hk).symm

/-- Race freedom of a round: whatever threads are created and whatever the interleaving
of the element updates of the workers that run, the memory after the round is the one
obtained by running these workers one after the other. -/
theorem schedule_independent {α : Type} (F : Arith α) (a : α) {p w : Int}
    (created : Int → Bool) (hp : 0 ≤ p)
    (hp2 : p ≤ INT_MAX) (hw : 1 ≤ w) (hw2 : w ≤ INT_MAX) (m : Mem α)
    (hX : (m.X.length : Int) = p) (hY : (m.Y.length : Int) = p) (tr : List Int)
    (htr : Interleaving (worker_traces p w (segment_size p w) created) tr) :
    tr.foldlM (saxpy_body F a) m = spawn_join F a p w (segment_size p w) created m := by
  have hsub := traces_sublist created hp hp2 hw hw2
  rw [spawn_join_eq_traces]
  refine foldlM_perm F a m tr _ htr.perm ((for_range_nodup 0 p).sublist hsub) ?_ (by omega)
  intro j hj
  have := mem_for_range.mp (hsub.subset hj)
  omega

/-- A schedule of the two workers of `p = 5`, `w = 2` that alternates between them. -/
theorem interleaving_example :
    Interleaving (worker_traces 5 2 (segment_size 5 2) (fun _ => true)) [2, 0, 3, 1, 4] := by
  have h : worker_traces 5 2 (segment_size 5 2) (fun _ => true) = [[0, 1], [2, 3, 4]] := by
    decide
  rw [h]
  refine Interleaving.step _ 1 2 [3, 4] _ rfl ?_
  refine Interleaving.step _ 0 0 [1] _ rfl ?_
  refine Interleaving.step _ 1 3 [4] _ rfl ?_
  refine Interleaving.step _ 0 1 [] _ rfl ?_
  refine Interleaving.step _ 1 4 [] _ rfl ?_
  exact Interleaving.done _ (by decide)

/-! ## Lemmas on the reduction and the round loop -/

theorem sum_prefix {α : Type} (F : Arith α) (Y : List α) (init : α) :
    ∀ k : Nat, k ≤ Y.length →
      (for_range 0 k).foldlM (fun total i => (load Y i).map (fun y => F.add total y)) init =
        some ((Y.take k).foldl F.add init) := by
  intro k
  induction k with
  | zero =>
    intro _
    simp [for_range_empty]
  | succ k ih =>
    intro hk
    have e1 : ((k + 1 : Nat) : Int) = (k : Int) + 1 := by push_cast; rfl
    rw [e1, for_range_snoc (by omega), List.foldlM_append, ih (by omega)]
    have hk2 : k < Y.length := by omega
    simp only [Option.bind_eq_bind, Option.some_bind, List.foldlM_cons, List.foldlM_nil,
      load_eq, List.getElem?_eq_getElem hk2, Option.map_some', Option.pure_def, Option.bind_some,
      List.take_succ, Option.toList_some, List.foldl_append, List.foldl_cons, List.foldl_nil]

theorem sum_Y_eq {α : Type} (F : Arith α) {p : Int} (m : Mem α)
    (hY : (m.Y.length : Int) = p) : sum_Y F p m = some (m.Y.foldl F.add (F.ofInt 0)) := by
  unfold sum_Y
  have h := sum_prefix F m.Y (F.ofInt 0) m.Y.length (le_refl _)
  rw [hY, List.take_length] at h
  exact h

theorem length_saxpy_iter {α : Type} (F : Arith α) (a : α) (X Y : List α)
    (h : X.length = Y.length) : ∀ k : Nat, (saxpy_iter F a X k Y).length = Y.length := by
  intro k
  induction k with
  | zero => rfl
  | succ k ih =>
    show (saxpy_all F a X (saxpy_iter F a X k Y)).length = Y.length
    rw [length_saxpy_all F a X _ (by omega), ih]

theorem for_range_sorted (lo hi : Int) : (for_range lo hi).Pairwise (fun x y => x < y) := by
  unfold for_range
  rw [List.pairwise_map]
  refine List.Pairwise.imp ?_ (List.pairwise_lt_range _)
  intro x y hxy
  omega

theorem load_nonneg {α : Type} (l : List α) {i : Int} (h : 0 ≤ i) : load l i = l[i.toNat]? := by
  unfold load
  rw [if_pos h]

theorem load_saxpy_all {α : Type} (F : Arith α) (a : α) (X Y : List α) (i : Int) (h0 : 0 ≤ i)
    (hX : i < X.length) (hY : i < Y.length) :
    ∃ x y, load X i = some x ∧ load Y i = some y ∧
      load (saxpy_all F a X Y) i = some (F.add y (F.mul a x)) := by
  have h1 : i.toNat < X.length := by omega
  have h2 : i.toNat < Y.length := by omega
  refine ⟨X[i.toNat], Y[i.toNat], ?_, ?_, ?_⟩
  · rw [load_nonneg X h0, List.getElem?_eq_getElem h1]
  · rw [load_nonneg Y h0, List.getElem?_eq_getElem h2]
  · rw [load_nonneg _ h0, getElem?_saxpy_all, List.getElem?_eq_getElem h1,
      List.getElem?_eq_getElem h2]
    rfl

/-- A round whose workers have been joined in the memory `mj`: the mean of `mj.Y` is
stored in slot `it` of `Y_avgs`, nothing else changes. -/
theorem round_of_join {α : Type} (F : Arith α) (a : α) {p w size : Int} {created : Int → Bool}
    {m mj : Mem α} (hj : spawn_join F a p w size created m = some mj)
    (hY : (mj.Y.length : Int) = p) (it : Int) (h0 : 0 ≤ it) (h1 : it < mj.Y_avgs.length) :
    round F a p w size created m it =
      some { X := mj.X
             Y := mj.Y
             Y_avgs := mj.Y_avgs.set it.toNat (mean F p mj.Y)
             avg_writes := mj.avg_writes ++ [it] } := by
  unfold round
  rw [hj]
  simp only [Option.bind_eq_bind, Option.some_bind]
  rw [sum_Y_eq F mj hY]
  simp only [Option.some_bind, store_avg, store, h0, h1, and_self, if_true, mean,
    Option.map_some']

/-- One round `it` in which every thread is created, for vectors of length `p` and a slot
`it` of `Y_avgs`. -/
theorem round_spec {α : Type} (F : Arith α) (a : α) {p w : Int} {created : Int → Bool}
    (hp : 0 ≤ p) (hp2 : p ≤ INT_MAX) (hw : 1 ≤ w) (hw2 : w ≤ INT_MAX)
    (hc : ∀ i : Int, 0 ≤ i → i < w → created i = true) (m : Mem α)
    (hX : (m.X.length : Int) = p) (hY : (m.Y.length : Int) = p) (it : Int) (h0 : 0 ≤ it)
    (h1 : it < m.Y_avgs.length) :
    round F a p w (segment_size p w) created m it =
      some { X := m.X
             Y := saxpy_all F a m.X m.Y
             Y_avgs := m.Y_avgs.set it.toNat (mean F p (saxpy_all F a m.X m.Y))
             avg_writes := m.avg_writes ++ [it] } := by
  have hl : ((saxpy_all F a m.X m.Y).length : Int) = p := by
    rw [length_saxpy_all F a m.X m.Y (by omega)]
    exact hY
  exact round_of_join F a (spawn_join_spec F a hp hp2 hw hw2 hc m hX hY) hl it h0 h1

/-- One round `it`, whatever threads are created: the round returns, `X` is kept, the
mean of `Y` as it stands after the join is stored in slot `it` of `Y_avgs`. -/
theorem round_safe {α : Type} (F : Arith α) (a : α) {p w : Int} (created : Int → Bool)
    (hp : 0 ≤ p) (hp2 : p ≤ INT_MAX) (hw : 1 ≤ w) (hw2 : w ≤ INT_MAX) (m : Mem α)
    (hX : (m.X.length : Int) = p) (hY : (m.Y.length : Int) = p) (it : Int) (h0 : 0 ≤ it)
    (h1 : it < m.Y_avgs.length) :
    ∃ mj, spawn_join F a p w (segment_size p w) created m = some mj ∧
      mj.Y.length = m.Y.length ∧
      round F a p w (segment_size p w) created m it =
        some { X := m.X
               Y := mj.Y
               Y_avgs := m.Y_avgs.set it.toNat (mean F p mj.Y)
               avg_writes := m.avg_writes ++ [it] } := by
  obtain ⟨mj, hj, e1, e2, e3, e4⟩ := spawn_join_safe F a created hp hp2 hw hw2 m hX hY
  refine ⟨mj, hj, e4, ?_⟩
  have hr := round_of_join F a hj (by omega) it h0 (by rw [e2]; exact h1)
  rw [e1, e2, e3] at hr
  exact hr

/-- When every thread is created, the round does not depend on the worker count. -/
theorem round_eq_of_workers {α : Type} (F : Arith α) (a : α) {p w1 w2 : Int}
    {c1 c2 : Int → Bool} (hp : 0 ≤ p)
    (hp2 : p ≤ INT_MAX) (hw1 : 1 ≤ w1) (hw12 : w1 ≤ INT_MAX) (hw2 : 1 ≤ w2)
    (hw22 : w2 ≤ INT_MAX) (hc1 : ∀ i : Int, 0 ≤ i → i < w1 → c1 i = true)
    (hc2 : ∀ i : Int, 0 ≤ i → i < w2 → c2 i = true) (m : Mem α) (it : Int) :
    round F a p w1 (segment_size p w1) c1 m it = round F a p w2 (segment_size p w2) c2 m it := by
  unfold round
  rw [spawn_join_eq F a hp hp2 hw1 hw12 hc1, spawn_join_eq F a hp hp2 hw2 hw22 hc2]

/-- The loop of `main` reaches the state after `k` rounds and goes on from there. -/
theorem rounds_split {α : Type} (F : Arith α) (a : α) (p w : Int) (created : Int → Int → Bool)
    {k n : Int} (hk : 0 ≤ k) (hkn : k ≤ n) (m : Mem α) :
    rounds F a p w created n m =
      (rounds F a p w created k m).bind
        (fun mk => (for_range k n).foldlM
          (fun m1 it => round F a p w (segment_size p w) (created it) m1 it) mk) := by
  unfold rounds
  rw [for_range_append hk hkn, List.foldlM_append]
  rfl

/-- Round `k` follows the first `k` rounds. -/
theorem rounds_succ {α : Type} (F : Arith α) (a : α) (p w : Int) (created : Int → Int → Bool)
    {k : Int} (hk : 0 ≤ k) (m : Mem α) :
    rounds F a p w created (k + 1) m =
      (rounds F a p w created k m).bind
        (fun mk => round F a p w (segment_size p w) (created k) mk k) := by
  rw [rounds_split F a p w created hk (by omega) m, for_range_one]
  congr 1
  funext mk
  simp only [List.foldlM_cons, List.foldlM_nil]
  cases round F a p w (segment_size p w) (created k) mk k <;> rfl

/-- State of the memory after `k` rounds, whatever threads are created. -/
theorem rounds_safe {α : Type} (F : Arith α) (a : α) {p w : Int} (created : Int → Int → Bool)
    (hp : 0 ≤ p) (hp2 : p ≤ INT_MAX) (hw : 1 ≤ w) (hw2 : w ≤ INT_MAX) (m : Mem α)
    (hX : (m.X.length : Int) = p) (hY : (m.Y.length : Int) = p) :
    ∀ k : Nat, k ≤ m.Y_avgs.length →
      ∃ mk, rounds F a p w created k m = some mk ∧ mk.X = m.X ∧ mk.Y.length = m.Y.length ∧
        mk.Y_avgs.length = m.Y_avgs.length ∧ mk.avg_writes = m.avg_writes ++ for_range 0 k ∧
        (∀ j : Nat, k ≤ j → mk.Y_avgs[j]? = m.Y_avgs[j]?) ∧
        (∀ j : Nat, j < k →
          ∃ mj, rounds F a p w created ((j : Int) + 1) m = some mj ∧
            mk.Y_avgs[j]? = some (mean F p mj.Y)) := by
  intro k
  induction k with
  | zero =>
    intro _
    refine ⟨m, ?_, rfl, rfl, rfl, ?_, ?_, ?_⟩
    · unfold rounds
      simp [for_range_empty]
    · simp [for_range_empty]
    · intro j _
      rfl
    · intro j hj
      omega
  | succ k ih =>
    intro hk
    obtain ⟨mk, h1, eX, eY, eL, eW, eA, eB⟩ := ih (by omega)
    have e1 : ((k + 1 : Nat) : Int) = (k : Int) + 1 := by push_cast; rfl
    have hXk : (mk.X.length : Int) = p := by rw [eX]; exact hX
    have hYk : (mk.Y.length : Int) = p := by rw [eY]; exact hY
    obtain ⟨mj, _, hjl, hr⟩ :=
      round_safe F a (created (k : Int)) hp hp2 hw hw2 mk hXk hYk (k : Int) (by omega)
        (by omega)
    have hnext : rounds F a p w created ((k : Int) + 1) m =
        some { X := mk.X
               Y := mj.Y
               Y_avgs := mk.Y_avgs.set (k : Int).toNat (mean F p mj.Y)
               avg_writes := mk.avg_writes ++ [(k : Int)] } := by
      rw [rounds_succ F a p w created (by omega) m, h1]
      exact hr
    refine ⟨{ X := mk.X
              Y := mj.Y
              Y_avgs := mk.Y_avgs.set (k : Int).toNat (mean F p mj.Y)
              avg_writes := mk.avg_writes ++ [(k : Int)] }, by rw [e1]; exact hnext, eX,
      by rw [← eY]; exact hjl, ?_, ?_, ?_, ?_⟩
    · simp only [List.length_set]
      exact eL
    · simp only [eW, e1]
      rw [for_range_snoc (by omega), List.append_assoc]
    · intro j hj
      simp only [Int.toNat_ofNat]
      rw [List.getElem?_set_ne (by omega)]
      exact eA j (by omega)
    · intro j hj
      simp only [Int.toNat_ofNat]
      by_cases hjk : j = k
      · subst hjk
        refine ⟨_, hnext, ?_⟩
        simp only [Int.toNat_ofNat]
        exact List.getElem?_set_self (by omega)
      · obtain ⟨mj2, r2, v2⟩ := eB j (by omega)
        refine ⟨mj2, r2, ?_⟩
        rw [List.getElem?_set_ne (by omega)]
        exact v2

/-- State of the memory after `k` rounds in which every thread is created. -/
theorem rounds_spec {α : Type} (F : Arith α) (a : α) {p w : Int} (created : Int → Int → Bool)
    (hp : 0 ≤ p) (hp2 : p ≤ INT_MAX) (hw : 1 ≤ w) (hw2 : w ≤ INT_MAX) (m : Mem α)
    (hX : (m.X.length : Int) = p) (hY : (m.Y.length : Int) = p) :
    ∀ k : Nat, k ≤ m.Y_avgs.length →
      (∀ r i : Int, 0 ≤ r → r < k → 0 ≤ i → i < w → created r i = true) →
      ∃ mk, rounds F a p w created k m = some mk ∧ mk.X = m.X ∧
        mk.Y = saxpy_iter F a m.X k m.Y ∧
        mk.Y_avgs.length = m.Y_avgs.length ∧ mk.avg_writes = m.avg_writes ++ for_range 0 k ∧
        ∀ j : Nat, mk.Y_avgs[j]? =
          if j < k then
            (if j < m.Y_avgs.length then some (mean F p (saxpy_iter F a m.X (j + 1) m.Y))
             else none)
          else m.Y_avgs[j]? := by
  intro k
  induction k with
  | zero =>
    intro _ _
    refine ⟨m, ?_, rfl, rfl, rfl, ?_, ?_⟩
    · unfold rounds
      simp [for_range_empty]
    · simp [for_range_empty]
    · intro j
      simp
  | succ k ih =>
    intro hk hc
    obtain ⟨mk, h1, eX, eY, eL, eW, eA⟩ :=
      ih (by omega) (fun r i hr0 hr hi0 hi => hc r i hr0 (by push_cast; omega) hi0 hi)
    have e1 : ((k + 1 : Nat) : Int) = (k : Int) + 1 := by push_cast; rfl
    have hXl : m.X.length = m.Y.length := by omega
    have hXk : (mk.X.length : Int) = p := by rw [eX]; exact hX
    have hYk : (mk.Y.length : Int) = p := by
      rw [eY, length_saxpy_iter F a m.X m.Y hXl k]
      exact hY
    have hck : ∀ i : Int, 0 ≤ i → i < w → created (k : Int) i = true :=
      fun i hi0 hi => hc (k : Int) i (by omega) (by push_cast; omega) hi0 hi
    have hr := round_spec F a hp hp2 hw hw2 hck mk hXk hYk (k : Int) (by omega) (by omega)
    refine ⟨{ X := mk.X
              Y := saxpy_all F a mk.X mk.Y
              Y_avgs := mk.Y_avgs.set (k : Int).toNat (mean F p (saxpy_all F a mk.X mk.Y))
              avg_writes := mk.avg_writes ++ [(k : Int)] }, ?_, ?_, ?_, ?_, ?_, ?_⟩
    · rw [e1, rounds_succ F a p w created (by omega) m, h1]
      exact hr
    · exact eX
    · simp only [eX, eY]
      rfl
    · simp only [List.length_set]
      exact eL
    · simp only [eW, e1]
      rw [for_range_snoc (by omega), List.append_assoc]
    · intro j
      simp only [Int.toNat_ofNat, List.getElem?_set, eL, eX, eY, eA j]
      by_cases hjk : k = j
      · subst hjk
        have : k < m.Y_avgs.length := by omega
        simp [this]
        rfl
      · rw [if_neg hjk]
        by_cases hlt : j < k
        · have h2 : j < k + 1 := by omega
          have h3 : j < m.Y_avgs.length := by omega
          simp [hlt, h2, h3]
        · have h2 : ¬ j < k + 1 := by omega
          simp [hlt, h2]

/-- The whole loop when every thread is created, for blocks of the allocated lengths. -/
theorem main_loop_spec {α : Type} (F : Arith α) (a : α) {p w max_iters : Int}
    (created : Int → Int → Bool) (hp : 0 ≤ p)
    (hp2 : p ≤ INT_MAX) (hw : 1 ≤ w) (hw2 : w ≤ INT_MAX) (m : Mem α)
    (hX : (m.X.length : Int) = p) (hY : (m.Y.length : Int) = p)
    (hA : (m.Y_avgs.length : Int) = max_iters)
    (hc : ∀ r i : Int, 0 ≤ r → r < max_iters → 0 ≤ i → i < w → created r i = true) :
    ∃ m1, main_loop F a p w max_iters created m = some m1 ∧ m1.X = m.X ∧
      m1.Y = saxpy_iter F a m.X max_iters.toNat m.Y ∧
      m1.avg_writes = m.avg_writes ++ for_range 0 max_iters ∧
      ∀ j : Nat, j < m.Y_avgs.length →
        m1.Y_avgs[j]? = some (mean F p (saxpy_iter F a m.X (j + 1) m.Y)) := by
  obtain ⟨m1, h1, eX, eY, _, eW, eA⟩ :=
    rounds_spec F a created hp hp2 hw hw2 m hX hY m.Y_avgs.length (le_refl _)
      (fun r i hr0 hr hi0 hi => hc r i hr0 (by omega) hi0 hi)
  rw [hA] at h1 eW
  have e : max_iters.toNat = m.Y_avgs.length := by omega
  refine ⟨m1, ?_, eX, by rw [e]; exact eY, eW, ?_⟩
  · unfold main_loop
    rw [if_neg (by omega)]
    exact h1
  · intro j hj
    rw [eA j, if_pos hj, if_pos hj]

/-- The whole loop, whatever threads are created, for blocks of the allocated lengths. -/
theorem main_loop_safe {α : Type} (F : Arith α) (a : α) {p w max_iters : Int}
    (created : Int → Int → Bool) (hp : 0 ≤ p)
    (hp2 : p ≤ INT_MAX) (hw : 1 ≤ w) (hw2 : w ≤ INT_MAX) (m : Mem α)
    (hX : (m.X.length : Int) = p) (hY : (m.Y.length : Int) = p)
    (hA : (m.Y_avgs.length : Int) = max_iters) :
    ∃ m1, main_loop F a p w max_iters created m = some m1 ∧
      m1.avg_writes = m.avg_writes ++ for_range 0 max_iters ∧
      ∀ j : Nat, j < m.Y_avgs.length →
        ∃ mj, rounds F a p w created ((j : Int) + 1) m = some mj ∧
          m1.Y_avgs[j]? = some (mean F p mj.Y) := by
  obtain ⟨m1, h1, _, _, _, eW, _, eB⟩ :=
    rounds_safe F a created hp hp2 hw hw2 m hX hY m.Y_avgs.length (le_refl _)
  rw [hA] at h1 eW
  refine ⟨m1, ?_, eW, eB⟩
  unfold main_loop
  rw [if_neg (by omega)]
  exact h1

theorem report_isSome {α : Type} (p max_iters : Int) (m : Mem α) :
    (report p max_iters m).isSome ↔
      ((load m.Y (int_sub p 3)).isSome ∧ (load m.Y (int_sub p 2)).isSome ∧
        (load m.Y (int_sub p 1)).isSome) ∧
      ((load m.Y_avgs (int_sub max_iters 3)).isSome ∧
        (load m.Y_avgs (int_sub max_iters 2)).isSome ∧
        (load m.Y_avgs (int_sub max_iters 1)).isSome) := by
  unfold report
  cases load m.Y (int_sub p 3) <;> cases load m.Y (int_sub p 2) <;>
    cases load m.Y (int_sub p 1) <;> cases load m.Y_avgs (int_sub max_iters 3) <;>
    cases load m.Y_avgs (int_sub max_iters 2) <;>
    cases load m.Y_avgs (int_sub max_iters 1) <;> simp

theorem int_sub_small {n c : Int} (hn : 1 ≤ n) (hn2 : n ≤ INT_MAX) (hc : 0 ≤ c) (hc2 : c ≤ 3) :
    int_sub n c = n - c := by
  unfold int_sub
  unfold INT_MAX at hn2
  exact wrap32_id (by omega) (by omega)

/-- With `max_iters = 1` the loop is round `0`. -/
theorem main_loop_one_round {α : Type} (F : Arith α) (a : α) (p w : Int)
    (created : Int → Int → Bool) (m : Mem α) (hw : w ≠ 0) :
    main_loop F a p w 1 created m = round F a p w (segment_size p w) (created 0) m 0 := by
  unfold main_loop
  rw [if_neg hw]
  have h := rounds_succ F a p w created (k := 0) (le_refl _) m
  rw [zero_add] at h
  rw [h]
  unfold rounds
  rw [for_range_empty (le_refl _)]
  rfl

/-- C9. No wrap-around in the partition arithmetic: for `1 ≤ p ≤ 2^31-1`,
`1 ≤ w ≤ 2^31-1` and a worker index `0 ≤ i < w`, the quotient `p / w` and the products
the program evaluates on `int` (`i * segment_size` always, `(i+1) * segment_size` only
when `i < w-1`) lie between `0` and `p`, so the 32-bit results are the mathematical
values, and the bounds handed to the worker satisfy `0 ≤ start ≤ end ≤ p`. -/
theorem partition_no_overflow (p w i : Int) (hp : 1 ≤ p) (hp2 : p ≤ INT_MAX) (hw : 1 ≤ w)
    (hw2 : w ≤ INT_MAX) (hi0 : 0 ≤ i) (hi : i < w) :
    (segment_size p w = p / w ∧ 0 ≤ p / w ∧ p / w ≤ p) ∧
    (0 ≤ i * (p / w) ∧ i * (p / w) ≤ p ∧ int_mul i (segment_size p w) = i * (p / w)) ∧
    (i < w - 1 → int_add i 1 = i + 1 ∧ 0 ≤ (i + 1) * (p / w) ∧ (i + 1) * (p / w) ≤ p ∧
      int_mul (int_add i 1) (segment_size p w) = (i + 1) * (p / w)) ∧
    (0 ≤ seg_start (segment_size p w) i ∧
      seg_start (segment_size p w) i ≤ seg_end p w (segment_size p w) i ∧
      seg_end p w (segment_size p w) i ≤ p) := by
  have hp0 : 0 ≤ p := by omega
  have hs : 0 ≤ p / w := Int.ediv_nonneg hp0 (by omega)
  refine ⟨⟨segment_size_eq hp0 hp2 hw, hs, Int.ediv_le_self w hp0⟩, ⟨mul_nonneg hi0 hs,
    mul_div_le hp0 hw (by omega), ?_⟩, ?_, seg_bounds hp0 hp2 hw hw2 hi0 hi⟩
  · exact seg_start_eq hp0 hp2 hw hi0 hi
  · intro hlt
    have h1 : int_add i 1 = i + 1 := by
      unfold int_add
      unfold INT_MAX at hw2
      exact wrap32_id (by omega) (by omega)
    refine ⟨h1, mul_nonneg (by omega) hs, mul_div_le hp0 hw (by omega), ?_⟩
    have h2 := seg_end_inner hp0 hp2 hw hw2 hi0 hlt
    unfold seg_end at h2
    unfold int_sub at h2
    unfold INT_MAX at hw2
    rw [wrap32_id (x := w - 1) (by omega) (by omega), if_neg (by omega)] at h2
    exact h2

theorem partition_no_overflow_witness :
    (segment_size 2147483647 65536 = 2147483647 / 65536 ∧ (0 : Int) ≤ 2147483647 / 65536 ∧
      (2147483647 : Int) / 65536 ≤ 2147483647) ∧
    ((0 : Int) ≤ 65534 * (2147483647 / 65536) ∧ (65534 : Int) * (2147483647 / 65536) ≤ 2147483647 ∧
      int_mul 65534 (segment_size 2147483647 65536) = 65534 * (2147483647 / 65536)) ∧
    ((65534 : Int) < 65536 - 1 → int_add 65534 1 = 65534 + 1 ∧
      (0 : Int) ≤ (65534 + 1) * (2147483647 / 65536) ∧
      ((65534 : Int) + 1) * (2147483647 / 65536) ≤ 2147483647 ∧
      int_mul (int_add 65534 1) (segment_size 2147483647 65536) =
        (65534 + 1) * (2147483647 / 65536)) ∧
    (0 ≤ seg_start (segment_size 2147483647 65536) 65534 ∧
      seg_start (segment_size 2147483647 65536) 65534 ≤
        seg_end 2147483647 65536 (segment_size 2147483647 65536) 65534 ∧
      seg_end 2147483647 65536 (segment_size 2147483647 65536) 65534 ≤ 2147483647) :=
  partition_no_overflow 2147483647 65536 65534 (by decide) (by decide) (by decide) (by decide)
    (by decide) (by decide)

/-- C5. Partition policy: for `1 ≤ p`, `1 ≤ w` (both of type `int`) the program uses
`size = p / w`; a worker `i < w-1` gets `[i*size, (i+1)*size)`, of length exactly `size`,
and the last worker `i = w-1` gets `[(w-1)*size, p)`, of length `size + p mod w`. For
`p = 10`, `w = 3` the segments are `[0,3)`, `[3,6)`, `[6,10)`. -/
theorem partition_policy :
    (∀ p w i : Int, 1 ≤ p → p ≤ INT_MAX → 1 ≤ w → w ≤ INT_MAX → 0 ≤ i → i < w →
      segment_size p w = p / w ∧
      (i < w - 1 →
        seg_start (segment_size p w) i = i * (p / w) ∧
        seg_end p w (segment_size p w) i = (i + 1) * (p / w) ∧
        seg_end p w (segment_size p w) i - seg_start (segment_size p w) i = p / w) ∧
      (i = w - 1 →
        seg_start (segment_size p w) i = (w - 1) * (p / w) ∧
        seg_end p w (segment_size p w) i = p ∧
        seg_end p w (segment_size p w) i - seg_start (segment_size p w) i = p / w + p % w)) ∧
    (for_range 0 3).map
        (fun i => (seg_start (segment_size 10 3) i, seg_end 10 3 (segment_size 10 3) i)) =
      [(0, 3), (3, 6), (6, 10)] := by
  refine ⟨?_, by decide⟩
  intro p w i hp hp2 hw hw2 hi0 hi
  have hp0 : 0 ≤ p := by omega
  refine ⟨segment_size_eq hp0 hp2 hw, ?_, ?_⟩
  · intro hlt
    rw [seg_start_eq hp0 hp2 hw hi0 hi, seg_end_inner hp0 hp2 hw hw2 hi0 hlt]
    refine ⟨rfl, rfl, ?_⟩
    ring
  · intro hl
    subst hl
    rw [seg_start_eq hp0 hp2 hw hi0 hi, seg_end_last hw hw2]
    refine ⟨rfl, rfl, ?_⟩
    have h1 : w * (p / w) + p % w = p := Int.ediv_add_emod p w
    have h2 : (w - 1) * (p / w) = w * (p / w) - p / w := by ring
    omega

theorem partition_policy_witness :
    segment_size 11 4 = 11 / 4 ∧
    ((3 : Int) < 4 - 1 →
      seg_start (segment_size 11 4) 3 = 3 * (11 / 4) ∧
      seg_end 11 4 (segment_size 11 4) 3 = (3 + 1) * (11 / 4) ∧
      seg_end 11 4 (segment_size 11 4) 3 - seg_start (segment_size 11 4) 3 = 11 / 4) ∧
    ((3 : Int) = 4 - 1 →
      seg_start (segment_size 11 4) 3 = (4 - 1) * (11 / 4) ∧
      seg_end 11 4 (segment_size 11 4) 3 = 11 ∧
      seg_end 11 4 (segment_size 11 4) 3 - seg_start (segment_size 11 4) 3 = 11 / 4 + 11 % 4) :=
  partition_policy.1 11 4 3 (by decide) (by decide) (by decide) (by decide) (by decide)
    (by decide)

/-- C1. Partition coverage: for `1 ≤ p`, `1 ≤ w` (both of type `int`) the `w` segments
computed in `main` are pairwise disjoint, every index `j` of `[0, p)` lies in the segment
of exactly one worker `i < w`, and no segment contains an index outside `[0, p)`. -/
theorem partition_coverage (p w : Int) (hp : 1 ≤ p) (hp2 : p ≤ INT_MAX) (hw : 1 ≤ w)
    (hw2 : w ≤ INT_MAX) :
    (∀ i k j : Int, 0 ≤ i → i < w → 0 ≤ k → k < w → i ≠ k →
      ¬ ((seg_start (segment_size p w) i ≤ j ∧ j < seg_end p w (segment_size p w) i) ∧
         (seg_start (segment_size p w) k ≤ j ∧ j < seg_end p w (segment_size p w) k))) ∧
    (∀ j : Int, 0 ≤ j → j < p →
      ∃ i : Int, (0 ≤ i ∧ i < w ∧ seg_start (segment_size p w) i ≤ j ∧
          j < seg_end p w (segment_size p w) i) ∧
        ∀ k : Int, 0 ≤ k → k < w → seg_start (segment_size p w) k ≤ j →
          j < seg_end p w (segment_size p w) k → k = i) ∧
    (∀ i j : Int, 0 ≤ i → i < w → seg_start (segment_size p w) i ≤ j →
      j < seg_end p w (segment_size p w) i → 0 ≤ j ∧ j < p) := by
  have hp0 : 0 ≤ p := by omega
  have hdis : ∀ i k j : Int, 0 ≤ i → i < w → 0 ≤ k → k < w → i ≠ k →
      ¬ ((seg_start (segment_size p w) i ≤ j ∧ j < seg_end p w (segment_size p w) i) ∧
         (seg_start (segment_size p w) k ≤ j ∧ j < seg_end p w (segment_size p w) k)) := by
    intro i k j hi0 hi hk0 hk hne hboth
    rcases lt_or_gt_of_ne hne with h | h
    · exact seg_disjoint hp0 hp2 hw hw2 hi0 h hk hboth.1.2 hboth.2.1
    · exact seg_disjoint hp0 hp2 hw hw2 hk0 h hi hboth.2.2 hboth.1.1
  refine ⟨hdis, ?_, ?_⟩
  · intro j hj0 hj
    obtain ⟨i, hi0, hi, h1, h2⟩ := seg_owner hp2 hw hw2 hj0 hj
    refine ⟨i, ⟨hi0, hi, h1, h2⟩, ?_⟩
    intro k hk0 hk h3 h4
    by_contra hne
    exact hdis k i j hk0 hk hi0 hi hne ⟨⟨h3, h4⟩, ⟨h1, h2⟩⟩
  · intro i j hi0 hi h1 h2
    have hb := seg_bounds hp0 hp2 hw hw2 hi0 hi
    omega

theorem partition_coverage_witness :
    (∀ i k j : Int, 0 ≤ i → i < 3 → 0 ≤ k → k < 3 → i ≠ k →
      ¬ ((seg_start (segment_size 10 3) i ≤ j ∧ j < seg_end 10 3 (segment_size 10 3) i) ∧
         (seg_start (segment_size 10 3) k ≤ j ∧ j < seg_end 10 3 (segment_size 10 3) k))) ∧
    (∀ j : Int, 0 ≤ j → j < 10 →
      ∃ i : Int, (0 ≤ i ∧ i < 3 ∧ seg_start (segment_size 10 3) i ≤ j ∧
          j < seg_end 10 3 (segment_size 10 3) i) ∧
        ∀ k : Int, 0 ≤ k → k < 3 → seg_start (segment_size 10 3) k ≤ j →
          j < seg_end 10 3 (segment_size 10 3) k → k = i) ∧
    (∀ i j : Int, 0 ≤ i → i < 3 → seg_start (segment_size 10 3) i ≤ j →
      j < seg_end 10 3 (segment_size 10 3) i → 0 ≤ j ∧ j < 10) :=
  partition_coverage 10 3 (by decide) (by decide) (by decide) (by decide)

/-! ## Worker and round: statements -/

/-- C6. WorkerTask frame: for `X`, `Y` of length `p`, a scalar `a` and a range with
`0 ≤ start` and `end ≤ p` (in particular `0 ≤ start ≤ end ≤ p`), one call of `saxpy_thread` with `iters = 1` returns, sets `Y[j]` to
`Y[j] + a*X[j]` for every `j` in `[start, end)`, leaves `Y[j]` unchanged for every `j`
outside `[start, end)`, and leaves `X` (and `Y_avgs`) unchanged. -/
theorem worker_frame {α : Type} (F : Arith α) (a : α) (p start end_ : Int) (m : Mem α)
    (hX : (m.X.length : Int) = p) (hY : (m.Y.length : Int) = p) (h0 : 0 ≤ start)
    (h2 : end_ ≤ p) :
    ∃ m1, saxpy_thread F { a := a, start := start, end_ := end_, iters := 1 } m = some m1 ∧
      m1.X = m.X ∧ m1.Y_avgs = m.Y_avgs ∧ m1.Y.length = m.Y.length ∧
      (∀ j : Int, start ≤ j → j < end_ →
        ∃ x y, load m.X j = some x ∧ load m.Y j = some y ∧
          load m1.Y j = some (F.add y (F.mul a x))) ∧
      (∀ j : Int, ¬ (start ≤ j ∧ j < end_) → load m1.Y j = load m.Y j) := by
  have hb : ∀ j ∈ for_range start end_, 0 ≤ j ∧ j < m.Y.length := by
    intro j hj
    have := mem_for_range.mp hj
    omega
  obtain ⟨m1, e0, e1, e2, _, e4, e5⟩ :=
    foldlM_saxpy_body F a (for_range start end_) m (for_range_nodup _ _) hb (by omega)
  refine ⟨m1, ?_, e1, e2, e4, ?_, ?_⟩
  · rw [saxpy_thread_one]
    exact e0
  · intro j hj1 hj2
    have hj0 : 0 ≤ j := by omega
    have hjX : j.toNat < m.X.length := by omega
    have hjY : j.toNat < m.Y.length := by omega
    have hmem : ((j.toNat : Nat) : Int) ∈ for_range start end_ := by
      rw [mem_for_range]
      omega
    refine ⟨m.X[j.toNat], m.Y[j.toNat], ?_, ?_, ?_⟩
    · rw [load_nonneg _ hj0, List.getElem?_eq_getElem hjX]
    · rw [load_nonneg _ hj0, List.getElem?_eq_getElem hjY]
    · rw [load_nonneg _ hj0, e5 j.toNat, if_pos hmem, List.getElem?_eq_getElem hjX,
        List.getElem?_eq_getElem hjY]
      rfl
  · intro j hj
    by_cases hj0 : 0 ≤ j
    · have hmem : ¬ (((j.toNat : Nat) : Int) ∈ for_range start end_) := by
        rw [mem_for_range]
        omega
      rw [load_nonneg _ hj0, load_nonneg _ hj0, e5 j.toNat, if_neg hmem]
    · rw [load_of_neg _ (by omega), load_of_neg _ (by omega)]

theorem worker_frame_witness :
    ∃ m1, saxpy_thread intArith { a := 2, start := 1, end_ := 3, iters := 1 }
        ({ X := [1, 2, 3, 4], Y := [10, 20, 30, 40], Y_avgs := [0], avg_writes := [] } : Mem Int) =
        some m1 ∧
      m1.X = [1, 2, 3, 4] ∧ m1.Y_avgs = [0] ∧ m1.Y.length = [10, 20, 30, 40].length ∧
      (∀ j : Int, 1 ≤ j → j < 3 →
        ∃ x y, load [1, 2, 3, 4] j = some x ∧ load [10, 20, 30, 40] j = some y ∧
          load m1.Y j = some (intArith.add y (intArith.mul 2 x))) ∧
      (∀ j : Int, ¬ (1 ≤ j ∧ j < 3) → load m1.Y j = load [10, 20, 30, 40] j) :=
  worker_frame intArith 2 4 1 3
    { X := [1, 2, 3, 4], Y := [10, 20, 30, 40], Y_avgs := [0], avg_writes := [] }
    (by decide) (by decide) (by decide) (by decide)

/-- C2 (amended). Single-round correctness: for `p ≥ 1`, `w ≥ 1` (both of type `int`),
vectors `X` and `Y` of length `p` and a scalar `a`, one round of the loop of `main` in
which every call `pthread_create` succeeds (so that each of the `w` workers runs
`saxpy_thread` with `iters = 1` on its segment before the joins) returns with `X`
unchanged and `Y_after[i] = Y_before[i] + a*X[i]` at every index `i` of `[0, p)`; the
indices visited by the workers are `0, ..., p-1`, each exactly once, and every
interleaving of the element updates of the workers yields that same memory. -/
theorem single_round_correct {α : Type} (F : Arith α) (a : α) (p w : Int)
    (created : Int → Bool) (m : Mem α)
    (hp : 1 ≤ p) (hp2 : p ≤ INT_MAX) (hw : 1 ≤ w) (hw2 : w ≤ INT_MAX)
    (hc : ∀ i : Int, 0 ≤ i → i < w → created i = true)
    (hX : (m.X.length : Int) = p) (hY : (m.Y.length : Int) = p) :
    ∃ m1, spawn_join F a p w (segment_size p w) created m = some m1 ∧
      m1.X = m.X ∧ m1.Y.length = m.Y.length ∧
      (∀ i : Int, 0 ≤ i → i < p →
        ∃ x y, load m.X i = some x ∧ load m.Y i = some y ∧
          load m1.Y i = some (F.add y (F.mul a x))) ∧
      (worker_traces p w (segment_size p w) created).flatten = for_range 0 p ∧
      (∀ tr : List Int, Interleaving (worker_traces p w (segment_size p w) created) tr →
        tr.foldlM (saxpy_body F a) m = some m1) := by
  have hp0 : 0 ≤ p := by omega
  have hs := spawn_join_spec F a hp0 hp2 hw hw2 hc m hX hY
  refine ⟨_, hs, rfl, ?_, ?_, traces_flatten hp0 hp2 hw hw2 hc, ?_⟩
  · exact length_saxpy_all F a m.X m.Y (by omega)
  · intro i hi0 hi
    exact load_saxpy_all F a m.X m.Y i hi0 (by omega) (by omega)
  · intro tr htr
    rw [schedule_independent F a created hp0 hp2 hw hw2 m hX hY tr htr]
    exact hs

theorem single_round_correct_witness :
    ∃ m1, spawn_join intArith 2 5 2 (segment_size 5 2) (fun _ => true)
        ({ X := [1, 2, 3, 4, 5], Y := [10, 20, 30, 40, 50], Y_avgs := [0], avg_writes := [] } :
          Mem Int) = some m1 ∧
      m1.X = [1, 2, 3, 4, 5] ∧ m1.Y.length = [10, 20, 30, 40, 50].length ∧
      (∀ i : Int, 0 ≤ i → i < 5 →
        ∃ x y, load [1, 2, 3, 4, 5] i = some x ∧ load [10, 20, 30, 40, 50] i = some y ∧
          load m1.Y i = some (intArith.add y (intArith.mul 2 x))) ∧
      (worker_traces 5 2 (segment_size 5 2) (fun _ => true)).flatten = for_range 0 5 ∧
      (∀ tr : List Int, Interleaving (worker_traces 5 2 (segment_size 5 2) (fun _ => true)) tr →
        tr.foldlM (saxpy_body intArith 2)
          { X := [1, 2, 3, 4, 5], Y := [10, 20, 30, 40, 50], Y_avgs := [0], avg_writes := [] } =
          some m1) :=
  single_round_correct intArith 2 5 2 (fun _ => true)
    { X := [1, 2, 3, 4, 5], Y := [10, 20, 30, 40, 50], Y_avgs := [0], avg_writes := [] }
    (by decide) (by decide) (by decide) (by decide) (fun _ _ _ => rfl) (by decide) (by decide)

/-- C2 as stated, for every worker count, fails: with `p = 2`, `n_threads = 40000`,
`X = [1, 1]`, `Y = [10, 20]`, `a = 2` and calls `pthread_create` that succeed for the
workers `0, ..., 31999` only, the last worker, the only one with a non-empty segment,
never runs: the round returns the memory unchanged, so `Y[0]` is `10` and not
`10 + 2*1`. -/
theorem single_round_counterexample :
    spawn_join intArith 2 2 40000 (segment_size 2 40000) (fun i => decide (i < 32000))
        ({ X := [1, 1], Y := [10, 20], Y_avgs := [0], avg_writes := [] } : Mem Int) =
      some { X := [1, 1], Y := [10, 20], Y_avgs := [0], avg_writes := [] } ∧
    ¬ ∃ m1, spawn_join intArith 2 2 40000 (segment_size 2 40000) (fun i => decide (i < 32000))
        ({ X := [1, 1], Y := [10, 20], Y_avgs := [0], avg_writes := [] } : Mem Int) = some m1 ∧
      ∀ i : Int, 0 ≤ i → i < 2 →
        ∃ x y, load [1, 1] i = some x ∧ load [10, 20] i = some y ∧
          load m1.Y i = some (intArith.add y (intArith.mul 2 x)) := by
  have h := spawn_join_last_not_created intArith 2 (p := 2) (w := 40000)
    (fun i => decide (i < 32000)) (by decide) (by decide) (by decide) (by decide)
    ({ X := [1, 1], Y := [10, 20], Y_avgs := [0], avg_writes := [] } : Mem Int)
  refine ⟨h, ?_⟩
  rintro ⟨m1, h1, h2⟩
  rw [h] at h1
  obtain ⟨x, y, hx, hy, hv⟩ := h2 0 (by decide) (by decide)
  rw [← Option.some.inj h1] at hv
  have ex : x = 1 := (Option.some.inj hx).symm
  have ey : y = 10 := (Option.some.inj hy).symm
  subst ex ey
  exact absurd (Option.some.inj hv) (by decide)

/-- C3 (amended). Worker-count invariance: for fixed `p ≥ 1`, `X`, `Y`, `a` and
`max_iters` (the length of `Y_avgs`, in particular `max_iters ≥ 1`), the round loop of
`main` run with any two worker counts `w1 ≥ 1` and `w2 ≥ 1` (for instance `1` and `4`)
returns, and returns the same memory, the same final `Y` and the same `Y_avgs`, provided
every call `pthread_create` succeeds in both runs. -/
theorem worker_count_invariance {α : Type} (F : Arith α) (a : α) (p w1 w2 max_iters : Int)
    (c1 c2 : Int → Int → Bool)
    (m : Mem α) (hp : 1 ≤ p) (hp2 : p ≤ INT_MAX) (hw1 : 1 ≤ w1) (hw12 : w1 ≤ INT_MAX)
    (hw2 : 1 ≤ w2) (hw22 : w2 ≤ INT_MAX)
    (hc1 : ∀ r i : Int, 0 ≤ r → r < max_iters → 0 ≤ i → i < w1 → c1 r i = true)
    (hc2 : ∀ r i : Int, 0 ≤ r → r < max_iters → 0 ≤ i → i < w2 → c2 r i = true)
    (hX : (m.X.length : Int) = p) (hY : (m.Y.length : Int) = p)
    (hA : (m.Y_avgs.length : Int) = max_iters) :
    ∃ m1, main_loop F a p w1 max_iters c1 m = some m1 ∧
      main_loop F a p w2 max_iters c2 m = some m1 ∧
      m1.Y = saxpy_iter F a m.X max_iters.toNat m.Y ∧
      ∀ it : Int, 0 ≤ it → it < max_iters →
        load m1.Y_avgs it = some (mean F p (saxpy_iter F a m.X (it.toNat + 1) m.Y)) := by
  have hp0 : 0 ≤ p := by omega
  obtain ⟨m1, h1, _, eY, _, eA⟩ := main_loop_spec F a c1 hp0 hp2 hw1 hw12 m hX hY hA hc1
  refine ⟨m1, h1, ?_, eY, ?_⟩
  · rw [← h1]
    unfold main_loop rounds
    rw [if_neg (by omega), if_neg (by omega)]
    apply foldlM_congr_mem
    intro it hit s
    have hr := mem_for_range.mp hit
    exact (round_eq_of_workers F a hp0 hp2 hw1 hw12 hw2 hw22
      (fun i hi0 hi => hc1 it i hr.1 hr.2 hi0 hi)
      (fun i hi0 hi => hc2 it i hr.1 hr.2 hi0 hi) s it).symm
  · intro it h0 hlt
    rw [load_nonneg _ h0]
    exact eA it.toNat (by omega)

theorem worker_count_invariance_witness :
    ∃ m1, main_loop intArith 2 5 1 2 (fun _ _ => true)
        ({ X := [1, 2, 3, 4, 5], Y := [10, 20, 30, 40, 50], Y_avgs := [0, 0], avg_writes := [] } :
          Mem Int) = some m1 ∧
      main_loop intArith 2 5 4 2 (fun _ _ => true)
        ({ X := [1, 2, 3, 4, 5], Y := [10, 20, 30, 40, 50], Y_avgs := [0, 0], avg_writes := [] } :
          Mem Int) = some m1 ∧
      m1.Y = saxpy_iter intArith 2 [1, 2, 3, 4, 5] (2 : Int).toNat [10, 20, 30, 40, 50] ∧
      ∀ it : Int, 0 ≤ it → it < 2 →
        load m1.Y_avgs it =
          some (mean intArith 5
            (saxpy_iter intArith 2 [1, 2, 3, 4, 5] (it.toNat + 1) [10, 20, 30, 40, 50])) :=
  worker_count_invariance intArith 2 5 1 4 2 (fun _ _ => true) (fun _ _ => true)
    { X := [1, 2, 3, 4, 5], Y := [10, 20, 30, 40, 50], Y_avgs := [0, 0], avg_writes := [] }
    (by decide) (by decide) (by decide) (by decide) (by decide) (by decide)
    (fun _ _ _ _ _ _ => rfl) (fun _ _ _ _ _ _ => rfl) (by decide) (by decide) (by decide)

/-- C3 as stated, for any two worker counts, fails: with `p = 2`, `X = [1, 1]`,
`Y = [10, 20]`, `a = 2`, `max_iters = 1` and calls `pthread_create` that succeed for the
workers `0, ..., 31999` only, the run with `n_threads = 1` ends with `Y = [12, 22]` and
`Y_avgs = [17]`, the run with `n_threads = 40000` with `Y = [10, 20]` and
`Y_avgs = [15]`. -/
theorem worker_count_counterexample :
    (main_loop intArith 2 2 1 1 (fun _ i => decide (i < 32000))
        ({ X := [1, 1], Y := [10, 20], Y_avgs := [0], avg_writes := [] } : Mem Int)).map
      (fun m1 => (m1.Y, m1.Y_avgs)) = some ([12, 22], [17]) ∧
    (main_loop intArith 2 2 40000 1 (fun _ i => decide (i < 32000))
        ({ X := [1, 1], Y := [10, 20], Y_avgs := [0], avg_writes := [] } : Mem Int)).map
      (fun m1 => (m1.Y, m1.Y_avgs)) = some ([10, 20], [15]) := by
  refine ⟨by decide, ?_⟩
  have h := spawn_join_last_not_created intArith 2 (p := 2) (w := 40000)
    (fun i => decide (i < 32000)) (by decide) (by decide) (by decide) (by decide)
    ({ X := [1, 1], Y := [10, 20], Y_avgs := [0], avg_writes := [] } : Mem Int)
  rw [main_loop_one_round intArith 2 2 40000 _ _ (by decide),
    round_of_join intArith 2 h (by decide) 0 (by decide) (by decide)]
  decide

/-! ## Reduction and round order: statements -/

/-- C4 (amended). Reduction correctness: for every round `it` with `0 ≤ it < max_iters`,
whatever the outcomes of the calls `pthread_create`, the loop reaches round `it`; the
value the round stores in `Y_avgs[it]` is `(Y[0] + ... + Y[p-1]) / p`, summed left to
right from `0`, where `Y` is the output vector as it stands after the workers of that
round have been joined; that value is still in `Y_avgs[it]` when the loop ends; and
that vector is `Y` after exactly `it+1` updates of every element provided every call
`pthread_create` of the rounds `0, ..., it` succeeded. -/
theorem reduction_correct {α : Type} (F : Arith α) (a : α) (p w max_iters it : Int)
    (created : Int → Int → Bool)
    (m : Mem α) (hp : 1 ≤ p) (hp2 : p ≤ INT_MAX) (hw : 1 ≤ w) (hw2 : w ≤ INT_MAX)
    (h0 : 0 ≤ it) (h1 : it < max_iters)
    (hX : (m.X.length : Int) = p) (hY : (m.Y.length : Int) = p)
    (hA : (m.Y_avgs.length : Int) = max_iters) :
    ∃ m_it m_join m_next m_end,
      rounds F a p w created it m = some m_it ∧
      spawn_join F a p w (segment_size p w) (created it) m_it = some m_join ∧
      round F a p w (segment_size p w) (created it) m_it it = some m_next ∧
      m_next.Y = m_join.Y ∧
      load m_next.Y_avgs it =
        some (F.div (m_join.Y.foldl F.add (F.ofInt 0)) (F.ofInt p)) ∧
      main_loop F a p w max_iters created m =
        (for_range (it + 1) max_iters).foldlM
          (fun m1 r => round F a p w (segment_size p w) (created r) m1 r) m_next ∧
      main_loop F a p w max_iters created m = some m_end ∧
      load m_end.Y_avgs it =
        some (F.div (m_join.Y.foldl F.add (F.ofInt 0)) (F.ofInt p)) ∧
      ((∀ r i : Int, 0 ≤ r → r ≤ it → 0 ≤ i → i < w → created r i = true) →
        m_join.Y = saxpy_iter F a m.X (it.toNat + 1) m.Y) := by
  have hp0 : 0 ≤ p := by omega
  have hXl : m.X.length = m.Y.length := by omega
  have e : ((it.toNat : Nat) : Int) = it := by omega
  obtain ⟨mk, r1, eX, eY, eL, _, _, _⟩ :=
    rounds_safe F a created hp0 hp2 hw hw2 m hX hY it.toNat (by omega)
  rw [e] at r1
  have hXk : (mk.X.length : Int) = p := by rw [eX]; exact hX
  have hYk : (mk.Y.length : Int) = p := by rw [eY]; exact hY
  obtain ⟨mj, hj, _, hr⟩ :=
    round_safe F a (created it) hp0 hp2 hw hw2 mk hXk hYk it h0 (by omega)
  have hnext := rounds_succ F a p w created h0 m
  rw [r1] at hnext
  simp only [Option.some_bind] at hnext
  rw [hr] at hnext
  obtain ⟨me, l1, _, lB⟩ := main_loop_safe F a created hp0 hp2 hw hw2 m hX hY hA
  refine ⟨mk, mj, _, me, r1, hj, hr, rfl, ?_, ?_, l1, ?_, ?_⟩
  · rw [load_nonneg _ h0]
    simp only [mean]
    exact List.getElem?_set_self (by omega)
  · unfold main_loop
    rw [if_neg (by omega), rounds_split F a p w created (k := it + 1) (by omega) (by omega) m,
      hnext]
    rfl
  · obtain ⟨mj2, r2, v2⟩ := lB it.toNat (by omega)
    rw [e, hnext] at r2
    rw [load_nonneg _ h0, v2, ← Option.some.inj r2]
    rfl
  · intro hc
    obtain ⟨mk2, r3, eX2, eY2, _⟩ :=
      rounds_spec F a created hp0 hp2 hw hw2 m hX hY it.toNat (by omega)
        (fun r i hr0 hrlt hi0 hi => hc r i hr0 (by omega) hi0 hi)
    rw [e, r1] at r3
    have hmk : mk = mk2 := Option.some.inj r3
    subst hmk
    have hs := spawn_join_spec F a hp0 hp2 hw hw2
      (fun i hi0 hi => hc it i h0 (le_refl _) hi0 hi) mk hXk hYk
    rw [hj] at hs
    rw [Option.some.inj hs]
    simp only [eX2, eY2]
    rfl

theorem reduction_correct_witness :
    ∃ m_it m_join m_next m_end,
      rounds intArith 2 4 3 (fun _ _ => true) 1
        ({ X := [1, 2, 3, 4], Y := [10, 20, 30, 40], Y_avgs := [0, 0], avg_writes := [] } :
          Mem Int) = some m_it ∧
      spawn_join intArith 2 4 3 (segment_size 4 3) ((fun _ _ => true) (1 : Int)) m_it =
        some m_join ∧
      round intArith 2 4 3 (segment_size 4 3) ((fun _ _ => true) (1 : Int)) m_it 1 =
        some m_next ∧
      m_next.Y = m_join.Y ∧
      load m_next.Y_avgs 1 =
        some (intArith.div (m_join.Y.foldl intArith.add (intArith.ofInt 0)) (intArith.ofInt 4)) ∧
      main_loop intArith 2 4 3 2 (fun _ _ => true)
        ({ X := [1, 2, 3, 4], Y := [10, 20, 30, 40], Y_avgs := [0, 0], avg_writes := [] } :
          Mem Int) =
        (for_range (1 + 1) 2).foldlM
          (fun m1 r => round intArith 2 4 3 (segment_size 4 3) ((fun _ _ => true) r) m1 r)
          m_next ∧
      main_loop intArith 2 4 3 2 (fun _ _ => true)
        ({ X := [1, 2, 3, 4], Y := [10, 20, 30, 40], Y_avgs := [0, 0], avg_writes := [] } :
          Mem Int) = some m_end ∧
      load m_end.Y_avgs 1 =
        some (intArith.div (m_join.Y.foldl intArith.add (intArith.ofInt 0)) (intArith.ofInt 4)) ∧
      ((∀ r i : Int, 0 ≤ r → r ≤ 1 → 0 ≤ i → i < 3 → (fun _ _ => true) r i = true) →
        m_join.Y = saxpy_iter intArith 2 [1, 2, 3, 4] ((1 : Int).toNat + 1) [10, 20, 30, 40]) :=
  reduction_correct intArith 2 4 3 2 1 (fun _ _ => true)
    { X := [1, 2, 3, 4], Y := [10, 20, 30, 40], Y_avgs := [0, 0], avg_writes := [] }
    (by decide) (by decide) (by decide) (by decide) (by decide) (by decide) (by decide)
    (by decide) (by decide)

/-- C4 as stated fails in its last part: with `p = 2`, `n_threads = 40000`, `X = [1, 1]`,
`Y = [10, 20]`, `a = 2`, `max_iters = 1` and calls `pthread_create` that succeed for the
workers `0, ..., 31999` only, the vector after the join of round `0` is still
`[10, 20]`, not the vector `[12, 22]` obtained by one update of every element, and the
value stored in `Y_avgs[0]` is `15`, the mean of the former, not `17`, the mean of the
latter. -/
theorem reduction_counterexample :
    spawn_join intArith 2 2 40000 (segment_size 2 40000) (fun i => decide (i < 32000))
        ({ X := [1, 1], Y := [10, 20], Y_avgs := [0], avg_writes := [] } : Mem Int) =
      some { X := [1, 1], Y := [10, 20], Y_avgs := [0], avg_writes := [] } ∧
    saxpy_iter intArith 2 [1, 1] ((0 : Int).toNat + 1) [10, 20] = [12, 22] ∧
    ([10, 20] : List Int) ≠ saxpy_iter intArith 2 [1, 1] ((0 : Int).toNat + 1) [10, 20] ∧
    (main_loop intArith 2 2 40000 1 (fun _ i => decide (i < 32000))
        ({ X := [1, 1], Y := [10, 20], Y_avgs := [0], avg_writes := [] } : Mem Int)).bind
      (fun m1 => load m1.Y_avgs 0) = some 15 ∧
    mean intArith 2 (saxpy_iter intArith 2 [1, 1] ((0 : Int).toNat + 1) [10, 20]) = 17 := by
  have h := spawn_join_last_not_created intArith 2 (p := 2) (w := 40000)
    (fun i => decide (i < 32000)) (by decide) (by decide) (by decide) (by decide)
    ({ X := [1, 1], Y := [10, 20], Y_avgs := [0], avg_writes := [] } : Mem Int)
  refine ⟨h, by decide, by decide, ?_, by decide⟩
  rw [main_loop_one_round intArith 2 2 40000 _ _ (by decide),
    round_of_join intArith 2 h (by decide) 0 (by decide) (by decide)]
  decide

/-- C8. Round order of `Y_avgs`, whatever the outcomes of the calls `pthread_create`:
round `it` of the loop of `main` replaces the content of the slot `Y_avgs[it]` by the
mean of `Y` as it stands after the join, and leaves every other slot of `Y_avgs`
unchanged; after `k` completed rounds each slot `j < k` holds the value stored by round
`j`, the slots from `k` on still hold their initial content (so `Y_avgs[it]` is not
written before round `it`, hence not before `Y_avgs[it-1]`), and the stores performed
are those to the slots `0, ..., k-1`, each once and in increasing order; after the loop
every slot of `[0, max_iters)` has been stored to. -/
theorem avgs_round_order {α : Type} (F : Arith α) (a : α) (p w max_iters : Int)
    (created : Int → Int → Bool) (m : Mem α)
    (hp : 1 ≤ p) (hp2 : p ≤ INT_MAX) (hw : 1 ≤ w) (hw2 : w ≤ INT_MAX)
    (hX : (m.X.length : Int) = p) (hY : (m.Y.length : Int) = p)
    (hA : (m.Y_avgs.length : Int) = max_iters) (hW : m.avg_writes = []) :
    (∀ (it : Int) (c : Int → Bool) (m0 : Mem α), 0 ≤ it → it < max_iters →
      (m0.X.length : Int) = p → (m0.Y.length : Int) = p →
      (m0.Y_avgs.length : Int) = max_iters →
      ∃ mj m1, spawn_join F a p w (segment_size p w) c m0 = some mj ∧
        round F a p w (segment_size p w) c m0 it = some m1 ∧
        m1.X = m0.X ∧ m1.Y = mj.Y ∧
        m1.Y_avgs =
          m0.Y_avgs.set it.toNat (F.div (mj.Y.foldl F.add (F.ofInt 0)) (F.ofInt p)) ∧
        load m1.Y_avgs it = some (F.div (mj.Y.foldl F.add (F.ofInt 0)) (F.ofInt p)) ∧
        (∀ j : Int, j ≠ it → load m1.Y_avgs j = load m0.Y_avgs j) ∧
        m1.avg_writes = m0.avg_writes ++ [it]) ∧
    (∀ k : Int, 0 ≤ k → k ≤ max_iters →
      ∃ mk, rounds F a p w created k m = some mk ∧
        main_loop F a p w max_iters created m =
          (for_range k max_iters).foldlM
            (fun m1 r => round F a p w (segment_size p w) (created r) m1 r) mk ∧
        (∀ j : Int, 0 ≤ j → j < k →
          ∃ mj, rounds F a p w created (j + 1) m = some mj ∧
            load mk.Y_avgs j = some (F.div (mj.Y.foldl F.add (F.ofInt 0)) (F.ofInt p))) ∧
        (∀ j : Int, k ≤ j → load mk.Y_avgs j = load m.Y_avgs j) ∧
        mk.avg_writes = for_range 0 k ∧
        (∀ j : Int, j ∈ mk.avg_writes ↔ 0 ≤ j ∧ j < k) ∧
        mk.avg_writes.Nodup ∧
        mk.avg_writes.Pairwise (fun x y => x < y)) ∧
    (∃ m_end, main_loop F a p w max_iters created m = some m_end ∧
      m_end.avg_writes = for_range 0 max_iters ∧
      ∀ j : Int, 0 ≤ j → j < max_iters →
        j ∈ m_end.avg_writes ∧
        ∃ mj, rounds F a p w created (j + 1) m = some mj ∧
          load m_end.Y_avgs j = some (F.div (mj.Y.foldl F.add (F.ofInt 0)) (F.ofInt p))) := by
  have hp0 : 0 ≤ p := by omega
  refine ⟨?_, ?_, ?_⟩
  · intro it c m0 h0 h1 hX0 hY0 hA0
    obtain ⟨mj, hj, _, hr⟩ := round_safe F a c hp0 hp2 hw hw2 m0 hX0 hY0 it h0 (by omega)
    refine ⟨mj, _, hj, hr, rfl, rfl, rfl, ?_, ?_, rfl⟩
    · rw [load_nonneg _ h0]
      simp only [mean]
      exact List.getElem?_set_self (by omega)
    · intro j hj
      by_cases hj0 : 0 ≤ j
      · rw [load_nonneg _ hj0, load_nonneg _ hj0]
        exact List.getElem?_set_ne (by omega)
      · rw [load_of_neg _ (by omega), load_of_neg _ (by omega)]
  · intro k hk0 hk
    have e : ((k.toNat : Nat) : Int) = k := by omega
    obtain ⟨mk, r1, _, _, _, eW, eA, eB⟩ :=
      rounds_safe F a created hp0 hp2 hw hw2 m hX hY k.toNat (by omega)
    rw [e] at r1 eW
    rw [hW, List.nil_append] at eW
    refine ⟨mk, r1, ?_, ?_, ?_, eW, ?_, ?_, ?_⟩
    · unfold main_loop
      rw [if_neg (by omega), rounds_split F a p w created hk0 hk m, r1]
      rfl
    · intro j hj0 hj
      have ej : ((j.toNat : Nat) : Int) = j := by omega
      obtain ⟨mj, r2, v2⟩ := eB j.toNat (by omega)
      rw [ej] at r2
      refine ⟨mj, r2, ?_⟩
      rw [load_nonneg _ hj0, v2]
      rfl
    · intro j hj
      have hj0 : 0 ≤ j := by omega
      rw [load_nonneg _ hj0, load_nonneg _ hj0]
      exact eA j.toNat (by omega)
    · intro j
      rw [eW]
      exact mem_for_range
    · rw [eW]
      exact for_range_nodup 0 k
    · rw [eW]
      exact for_range_sorted 0 k
  · obtain ⟨me, l1, lW, lB⟩ := main_loop_safe F a created hp0 hp2 hw hw2 m hX hY hA
    rw [hW, List.nil_append] at lW
    refine ⟨me, l1, lW, ?_⟩
    intro j hj0 hj
    have ej : ((j.toNat : Nat) : Int) = j := by omega
    refine ⟨by rw [lW]; exact mem_for_range.mpr ⟨hj0, hj⟩, ?_⟩
    obtain ⟨mj, r2, v2⟩ := lB j.toNat (by omega)
    rw [ej] at r2
    refine ⟨mj, r2, ?_⟩
    rw [load_nonneg _ hj0, v2]
    rfl

theorem avgs_round_order_witness :
    (∀ (it : Int) (c : Int → Bool) (m0 : Mem Int), 0 ≤ it → it < 2 →
      (m0.X.length : Int) = 4 → (m0.Y.length : Int) = 4 →
      (m0.Y_avgs.length : Int) = 2 →
      ∃ mj m1, spawn_join intArith 2 4 3 (segment_size 4 3) c m0 = some mj ∧
        round intArith 2 4 3 (segment_size 4 3) c m0 it = some m1 ∧
        m1.X = m0.X ∧ m1.Y = mj.Y ∧
        m1.Y_avgs =
          m0.Y_avgs.set it.toNat
            (intArith.div (mj.Y.foldl intArith.add (intArith.ofInt 0)) (intArith.ofInt 4)) ∧
        load m1.Y_avgs it =
          some (intArith.div (mj.Y.foldl intArith.add (intArith.ofInt 0)) (intArith.ofInt 4)) ∧
        (∀ j : Int, j ≠ it → load m1.Y_avgs j = load m0.Y_avgs j) ∧
        m1.avg_writes = m0.avg_writes ++ [it]) ∧
    (∀ k : Int, 0 ≤ k → k ≤ 2 →
      ∃ mk, rounds intArith 2 4 3 (fun _ i => decide (i < 2)) k
          ({ X := [1, 2, 3, 4], Y := [10, 20, 30, 40], Y_avgs := [7, 7], avg_writes := [] } :
            Mem Int) = some mk ∧
        main_loop intArith 2 4 3 2 (fun _ i => decide (i < 2))
          ({ X := [1, 2, 3, 4], Y := [10, 20, 30, 40], Y_avgs := [7, 7], avg_writes := [] } :
            Mem Int) =
          (for_range k 2).foldlM
            (fun m1 r =>
              round intArith 2 4 3 (segment_size 4 3) ((fun _ i => decide (i < 2)) r) m1 r) mk ∧
        (∀ j : Int, 0 ≤ j → j < k →
          ∃ mj, rounds intArith 2 4 3 (fun _ i => decide (i < 2)) (j + 1)
              ({ X := [1, 2, 3, 4], Y := [10, 20, 30, 40], Y_avgs := [7, 7], avg_writes := [] } :
                Mem Int) = some mj ∧
            load mk.Y_avgs j =
              some (intArith.div (mj.Y.foldl intArith.add (intArith.ofInt 0))
                (intArith.ofInt 4))) ∧
        (∀ j : Int, k ≤ j → load mk.Y_avgs j = load [7, 7] j) ∧
        mk.avg_writes = for_range 0 k ∧
        (∀ j : Int, j ∈ mk.avg_writes ↔ 0 ≤ j ∧ j < k) ∧
        mk.avg_writes.Nodup ∧
        mk.avg_writes.Pairwise (fun x y => x < y)) ∧
    (∃ m_end, main_loop intArith 2 4 3 2 (fun _ i => decide (i < 2))
        ({ X := [1, 2, 3, 4], Y := [10, 20, 30, 40], Y_avgs := [7, 7], avg_writes := [] } :
          Mem Int) = some m_end ∧
      m_end.avg_writes = for_range 0 2 ∧
      ∀ j : Int, 0 ≤ j → j < 2 →
        j ∈ m_end.avg_writes ∧
        ∃ mj, rounds intArith 2 4 3 (fun _ i => decide (i < 2)) (j + 1)
            ({ X := [1, 2, 3, 4], Y := [10, 20, 30, 40], Y_avgs := [7, 7], avg_writes := [] } :
              Mem Int) = some mj ∧
          load m_end.Y_avgs j =
            some (intArith.div (mj.Y.foldl intArith.add (intArith.ofInt 0))
              (intArith.ofInt 4))) :=
  avgs_round_order intArith 2 4 3 2 (fun _ i => decide (i < 2))
    { X := [1, 2, 3, 4], Y := [10, 20, 30, 40], Y_avgs := [7, 7], avg_writes := [] }
    (by decide) (by decide) (by decide) (by decide) (by decide) (by decide) (by decide) rfl

/-! ## Degenerate partition and final report: statements -/

/-- C10. Bounds of the final report: after the loop `main` reads `Y[p-3]`, `Y[p-2]`,
`Y[p-1]` and `Y_avgs[max_iters-3]`, `Y_avgs[max_iters-2]`, `Y_avgs[max_iters-1]`; for
positive `p` and `max_iters` and blocks of lengths `p` and `max_iters`, the six indices
are inside the blocks (equivalently, the six reads succeed) if and only if `p ≥ 3` and
`max_iters ≥ 3`; when `p < 3` the report reads `Y` at a negative index, and when
`max_iters < 3` it reads `Y_avgs` at a negative index. -/
theorem report_bounds {α : Type} (p max_iters : Int) (m : Mem α) (hp : 1 ≤ p)
    (hp2 : p ≤ INT_MAX) (hmi : 1 ≤ max_iters) (hmi2 : max_iters ≤ INT_MAX)
    (hY : (m.Y.length : Int) = p) (hA : (m.Y_avgs.length : Int) = max_iters) :
    (report_Y_indices p = [p - 3, p - 2, p - 1] ∧
      report_avg_indices max_iters = [max_iters - 3, max_iters - 2, max_iters - 1]) ∧
    (((∀ j ∈ report_Y_indices p, 0 ≤ j ∧ j < p) ∧
        (∀ j ∈ report_avg_indices max_iters, 0 ≤ j ∧ j < max_iters)) ↔
      (3 ≤ p ∧ 3 ≤ max_iters)) ∧
    ((report p max_iters m).isSome ↔ (3 ≤ p ∧ 3 ≤ max_iters)) ∧
    (p < 3 → ∃ j ∈ report_Y_indices p, j < 0 ∧ load m.Y j = none) ∧
    (max_iters < 3 → ∃ j ∈ report_avg_indices max_iters, j < 0 ∧ load m.Y_avgs j = none) := by
  have p3 := int_sub_small hp hp2 (c := 3) (by omega) (by omega)
  have p2 := int_sub_small hp hp2 (c := 2) (by omega) (by omega)
  have p1 := int_sub_small hp hp2 (c := 1) (by omega) (by omega)
  have q3 := int_sub_small hmi hmi2 (c := 3) (by omega) (by omega)
  have q2 := int_sub_small hmi hmi2 (c := 2) (by omega) (by omega)
  have q1 := int_sub_small hmi hmi2 (c := 1) (by omega) (by omega)
  refine ⟨⟨?_, ?_⟩, ?_, ?_, ?_, ?_⟩
  · unfold report_Y_indices
    rw [p3, p2, p1]
  · unfold report_avg_indices
    rw [q3, q2, q1]
  · unfold report_Y_indices report_avg_indices
    rw [p3, p2, p1, q3, q2, q1]
    simp only [List.mem_cons, List.mem_singleton, List.mem_nil_iff, or_false, forall_eq_or_imp,
      forall_eq]
    omega
  · rw [report_isSome, p3, p2, p1, q3, q2, q1]
    simp only [load_isSome]
    omega
  · intro h
    refine ⟨p - 3, ?_, by omega, load_of_neg _ (by omega)⟩
    unfold report_Y_indices
    rw [p3]
    exact List.mem_cons_self _ _
  · intro h
    refine ⟨max_iters - 3, ?_, by omega, load_of_neg _ (by omega)⟩
    unfold report_avg_indices
    rw [q3]
    exact List.mem_cons_self _ _

theorem report_bounds_witness :
    (report_Y_indices 2 = [2 - 3, 2 - 2, 2 - 1] ∧
      report_avg_indices 4 = [4 - 3, 4 - 2, 4 - 1]) ∧
    (((∀ j ∈ report_Y_indices 2, 0 ≤ j ∧ j < 2) ∧
        (∀ j ∈ report_avg_indices 4, 0 ≤ j ∧ j < 4)) ↔
      ((3 : Int) ≤ 2 ∧ (3 : Int) ≤ 4)) ∧
    ((report 2 4
        ({ X := [1, 2], Y := [10, 20], Y_avgs := [1, 2, 3, 4], avg_writes := [] } : Mem Int)).isSome ↔
      ((3 : Int) ≤ 2 ∧ (3 : Int) ≤ 4)) ∧
    ((2 : Int) < 3 → ∃ j ∈ report_Y_indices 2, j < 0 ∧ load [10, 20] j = none) ∧
    ((4 : Int) < 3 → ∃ j ∈ report_avg_indices 4, j < 0 ∧ load [1, 2, 3, 4] j = none) :=
  report_bounds 2 4 { X := [1, 2], Y := [10, 20], Y_avgs := [1, 2, 3, 4], avg_writes := [] }
    (by decide) (by decide) (by decide) (by decide) (by decide) (by decide)

end Saxpy
